import Mathlib

/-!
# Verification of `mav_trajectory_generation::Segment`

Shallow embedding of `include/mav_trajectory_generation/segment.h`.

The header stores the segment duration in a C++ `double` and converts it to and
from an unsigned 64-bit nanosecond count with one floating-point multiplication
each way.  The embedding therefore carries an exact model of IEEE-754 binary64
values (sign, integer significand, binary exponent), of multiplication with
round-to-nearest-even, of the conversion `uint64_t -> double` and of the
truncating cast `double -> uint64_t`.  Every operation is evaluated in binary64,
without excess precision, in the default rounding mode.

`Polynomial` (in `polynomial.h`) and the bodies of `operator[]` and `evaluate`
(in `segment.cpp`) are not part of the header; they are modelled from the
specification and marked as such.
-/

namespace MavTrajectoryGeneration

/-! ## IEEE-754 binary64 -/

/-- A binary64 value: the finite value `(-1)^neg * m * 2^e`, an infinity, or a NaN. -/
inductive Double where
  | finite (neg : Bool) (m : Nat) (e : Int)
  | inf (neg : Bool)
  | nan
deriving DecidableEq, Repr

namespace Double

/-- Binary digits of `m`, counted by halving at most `fuel` times. -/
def bitLengthAux : Nat → Nat → Nat
  | 0, _ => 0
  | fuel + 1, m => if m = 0 then 0 else bitLengthAux fuel (m / 2) + 1

/-- Number of binary digits of `m` (`0` for `0`): `2^(bitLength m - 1) ≤ m < 2^(bitLength m)`. -/
def bitLength (m : Nat) : Nat := bitLengthAux m m

/-- Canonical encodings: the significand has 53 bits, or the exponent is the least one
(`-1074`, subnormals and zero); the exponent is at most `971`. -/
def Canonical : Double → Prop
  | finite _ m e => m < 2 ^ 53 ∧ -1074 ≤ e ∧ e ≤ 971 ∧ (m < 2 ^ 52 → e = -1074)
  | _ => True

instance : DecidablePred Canonical
  | finite _ m e =>
    inferInstanceAs (Decidable (m < 2 ^ 53 ∧ -1074 ≤ e ∧ e ≤ 971 ∧ (m < 2 ^ 52 → e = -1074)))
  | inf _ => isTrue trivial
  | nan => isTrue trivial

/-- Round the exact value `(-1)^neg * m * 2^e` to binary64, to nearest, ties to even
(the default rounding mode of the C++ floating-point environment). -/
def roundNE (neg : Bool) (m : Nat) (e : Int) : Double :=
  if m = 0 then finite neg 0 (-1074)
  else
    let e1 : Int := max (e + (bitLength m : Int) - 53) (-1074)
    if e1 ≤ e then
      if e1 > 971 then inf neg else finite neg (m * 2 ^ (e - e1).toNat) e1
    else
      let s : Nat := (e1 - e).toNat
      let q : Nat := m / 2 ^ s
      let r : Nat := m % 2 ^ s
      let h : Nat := 2 ^ (s - 1)
      let q1 : Nat := if h < r ∨ (r = h ∧ q % 2 = 1) then q + 1 else q
      let m2 : Nat := if q1 = 2 ^ 53 then 2 ^ 52 else q1
      let e2 : Int := if q1 = 2 ^ 53 then e1 + 1 else e1
      if e2 > 971 then inf neg else finite neg m2 e2

/-- Binary64 multiplication `a * b`. -/
def mul : Double → Double → Double
  | nan, _ => nan
  | _, nan => nan
  | inf s, inf t => inf (xor s t)
  | inf s, finite t m _ => if m = 0 then nan else inf (xor s t)
  | finite s m _, inf t => if m = 0 then nan else inf (xor s t)
  | finite s m e, finite t n f => roundNE (xor s t) (m * n) (e + f)

/-- Conversion `uint64_t -> double` (an implicit conversion in `time_ns * 1.0e-9`). -/
def ofUInt64 (n : Nat) : Double := roundNE false n 0

/-- The cast `static_cast<uint64_t>(x)`: the fractional part is discarded; the behaviour
is undefined (`none`) when the truncated value is not a `uint64_t`. -/
def toUInt64 : Double → Option Nat
  | finite neg m e =>
    let v : Nat := if 0 ≤ e then m * 2 ^ e.toNat else m / 2 ^ (-e).toNat
    if neg then (if v = 0 then some 0 else none)
    else if v < 2 ^ 64 then some v else none
  | _ => none

/-- The literal `0` that initialises `time_`. -/
def zero : Double := finite false 0 (-1074)

/-- The literal `1.0e9`. -/
def c1e9 : Double := roundNE false 1000000000 0

/-- The literal `1.0e-9`: the binary64 value nearest to `10^-9`,
`0x1.12e0be826d695p-30 = 4835703278458517 * 2^-82`. -/
def c1em9 : Double := finite false 4835703278458517 (-82)

/-- The exact rational value of a finite binary64 value (`0` for infinities and NaN). -/
def toRat : Double → ℚ
  | finite neg m e => (if neg then -1 else 1) * (m : ℚ) * (2 : ℚ) ^ e
  | _ => 0

/-- The signed significand of a finite value, scaled to the exponent `e0 ≤ e`. -/
def scaled (neg : Bool) (m : Nat) (e e0 : Int) : Int :=
  (if neg then -1 else 1) * ((m * 2 ^ (e - e0).toNat : Nat) : Int)

/-- The comparison `a <= b` of binary64 values (false when either is a NaN). -/
def le : Double → Double → Prop
  | nan, _ => False
  | _, nan => False
  | inf s, inf t => s = true ∨ t = false
  | inf s, finite _ _ _ => s = true
  | finite _ _ _, inf t => t = false
  | finite s m e, finite t n f => scaled s m e (min e f) ≤ scaled t n f (min e f)

/-- The comparison `a < b` of binary64 values (false when either is a NaN). -/
def lt : Double → Double → Prop
  | nan, _ => False
  | _, nan => False
  | inf s, inf t => s = true ∧ t = false
  | inf s, finite _ _ _ => s = true
  | finite _ _ _, inf t => t = false
  | finite s m e, finite t n f => scaled s m e (min e f) < scaled t n f (min e f)

instance (a b : Double) : Decidable (le a b) := by
  cases a <;> cases b <;> unfold le <;> infer_instance

instance (a b : Double) : Decidable (lt a b) := by
  cases a <;> cases b <;> unfold lt <;> infer_instance

end Double

/-! ## Polynomial and Segment -/

/-- Failures of the segment operations. -/
inductive Error where
  | lengthError
  | outOfRange
  | invalidDerivativeOrder
deriving DecidableEq, Repr

/-- Modelled from the spec: the class `Polynomial` of `polynomial.h`, which is not among
the sources: it "owns coefficients for one scalar function of time" and exposes its
`coefficientCount`-length coefficient sequence. -/
structure Polynomial where
  N_ : Int
  coefficients_ : List Double
deriving DecidableEq, Repr

namespace Polynomial

/-- Modelled from the spec: the converting constructor `Polynomial(int N)` used by
`polynomials_.resize(D_, N_)`: a default-initialised polynomial configured for `N`
coefficients. -/
def ofN (N : Int) : Polynomial := { N_ := N, coefficients_ := List.replicate N.toNat Double.zero }

/-- The number of coefficients the polynomial reports. -/
def N (p : Polynomial) : Int := p.N_

end Polynomial

/-- The data members of `class Segment`. -/
structure Segment where
  polynomials_ : List Polynomial
  time_ : Double
  D_ : Int
  N_ : Int
deriving DecidableEq, Repr

namespace Segment

/-- The constructor `Segment(int N, int D) : time_(0), N_(N), D_(D)` with body
`polynomials_.resize(D_, N_)`.  `resize` takes its count as a `size_t`; a negative `D_`
converts to a count above `max_size()` and `resize` throws `std::length_error`. -/
def new (N D : Int) : Except Error Segment :=
  if D < 0 then .error .lengthError
  else .ok { polynomials_ := List.replicate D.toNat (Polynomial.ofN N),
             time_ := Double.zero, D_ := D, N_ := N }

/-- The accessor `int D() const`. -/
def D (s : Segment) : Int := s.D_

/-- The accessor `int N() const`. -/
def N (s : Segment) : Int := s.N_

/-- The accessor `double getTime() const`. -/
def getTime (s : Segment) : Double := s.time_

/-- The accessor `uint64_t getTimeNSec() const`, `static_cast<uint64_t>(1.0e9 * time_)`;
`none` where the cast has undefined behaviour. -/
def getTimeNSec (s : Segment) : Option Nat := (Double.mul Double.c1e9 s.time_).toUInt64

/-- The setter `void setTime(double _time)`. -/
def setTime (s : Segment) (_time : Double) : Segment := { s with time_ := _time }

/-- The setter `void setTimeNSec(uint64_t time_ns)`, `time_ = time_ns * 1.0e-9`. -/
def setTimeNSec (s : Segment) (time_ns : Nat) : Segment :=
  { s with time_ := Double.mul (Double.ofUInt64 time_ns) Double.c1em9 }

/-- The accessor `getPolynomialsRef() const`. -/
def getPolynomialsRef (s : Segment) : List Polynomial := s.polynomials_

/-- Modelled from the spec: `operator[](size_t idx)`, declared in `segment.h` and defined
in `segment.cpp`, which is not among the sources: "indexed access `segment[i]` for
`0 <= i < D` returns ... the i-th dimension's polynomial", and an index outside `[0, D)`
"fails fast with an out-of-range error". -/
def get (s : Segment) (idx : Nat) : Except Error Polynomial :=
  if (idx : Int) < s.D_ then
    match s.polynomials_[idx]? with
    | some p => .ok p
    | none => .error .outOfRange
  else .error .outOfRange

/-- Modelled from the spec: `evaluate(double t, int derivative_order)`, declared in
`segment.h` and defined in `segment.cpp`, which is not among the sources: "if
`derivativeOrder` is negative, the operation is invalid and must fail fast"; otherwise
"for each dimension `i` in `[0, D)`, in index order, invoke the dimension's polynomial
evaluator with `(t, derivativeOrder)` ...; assemble the D scalars, in dimension-index
order, into a single D-length output vector".  The evaluator of the external class
`Polynomial` is the parameter `polyEval`. -/
def evaluate (polyEval : Polynomial → Double → Nat → Double) (s : Segment) (t : Double)
    (derivative_order : Int) : Except Error (List Double) :=
  if derivative_order < 0 then .error .invalidDerivativeOrder
  else
    (List.range s.D_.toNat).mapM fun i =>
      (s.get i).map fun p => polyEval p t derivative_order.toNat

/-- The structural invariant of a constructed segment: `D_` polynomials are stored. -/
def WF (s : Segment) : Prop := 0 ≤ s.D_ ∧ s.polynomials_.length = s.D_.toNat

/-- The segment states reachable from construction by the two duration setters. -/
inductive Reachable : Segment → Prop
  | new (N D : Int) (s : Segment) : Segment.new N D = .ok s → Reachable s
  | setTime (s : Segment) (t : Double) : Reachable s → Reachable (s.setTime t)
  | setTimeNSec (s : Segment) (ns : Nat) : ns < 2 ^ 64 → Reachable s →
      Reachable (s.setTimeNSec ns)

/-- The states reachable from construction when `setTime` is only given durations
`s >= 0`. -/
inductive ReachableNonneg : Segment → Prop
  | new (N D : Int) (s : Segment) : Segment.new N D = .ok s → ReachableNonneg s
  | setTime (s : Segment) (t : Double) : Double.le Double.zero t → ReachableNonneg s →
      ReachableNonneg (s.setTime t)
  | setTimeNSec (s : Segment) (ns : Nat) : ns < 2 ^ 64 → ReachableNonneg s →
      ReachableNonneg (s.setTimeNSec ns)

/-- Modelled from the spec: a write through the mutable `operator[](size_t idx)`, declared
in `segment.h` and defined in `segment.cpp`, which is not among the sources: for
`0 <= i < D` the access "returns a mutable ... reference to the i-th dimension's
polynomial, allowing the caller to set coefficients"; the write `segment[idx] = p`
replaces that polynomial, and an index outside `[0, D)` fails with an out-of-range
error. -/
def setPolynomial (s : Segment) (idx : Nat) (p : Polynomial) : Except Error Segment :=
  if (idx : Int) < s.D_ ∧ idx < s.polynomials_.length then
    .ok { s with polynomials_ := s.polynomials_.set idx p }
  else .error .outOfRange

/-- The states reachable from `Segment(N, D)` by `setTime`, `setTimeNSec` and writes to a
polynomial through `segment[i]`. -/
inductive ReachableFrom (N D : Int) : Segment → Prop
  | new (s : Segment) : Segment.new N D = .ok s → ReachableFrom N D s
  | setTime (s : Segment) (t : Double) : ReachableFrom N D s → ReachableFrom N D (s.setTime t)
  | setTimeNSec (s : Segment) (ns : Nat) : ns < 2 ^ 64 → ReachableFrom N D s →
      ReachableFrom N D (s.setTimeNSec ns)
  | write (s s' : Segment) (i : Nat) (p : Polynomial) : s.setPolynomial i p = .ok s' →
      ReachableFrom N D s → ReachableFrom N D s'

end Segment

/-- The binary64 value nearest to `0.5e-9`. -/
def d05 : Double := .finite false 4835703278458517 (-83)

/-- The binary64 value nearest to `3e-9`; it lies below `3 / 10^9`. -/
def d3 : Double := .finite false 7253554917687775 (-81)

/-- The binary64 value `2^23 + 3 * 2^-29` (about 97 days, in seconds). -/
def dFar : Double := .finite false 4503599627370499 (-29)

/-- The binary64 value `7787418501746328 * 2^-28` (about 336 days, in seconds). -/
def dFloor : Double := .finite false 7787418501746328 (-28)

/-- The binary64 value `-1.0`. -/
def negOne : Double := .finite true 4503599627370496 (-52)

/-- The binary64 value nearest to `1.9e-9`. -/
def d19 : Double := .finite false 4593918114535591 (-81)

/-- The binary64 value nearest to `3.1e-8`; it lies below `31 / 10^9`. -/
def d31 : Double := .finite false 4684587551006688 (-77)

/-- The segment `Segment(6, 3)`. -/
def segment63 : Segment :=
  { polynomials_ := List.replicate 3 (Polynomial.ofN 6), time_ := Double.zero, D_ := 3, N_ := 6 }

/-- A polynomial with the given coefficients. -/
def polyOf (cs : List Double) : Polynomial := { N_ := cs.length, coefficients_ := cs }

/-- The binary64 value `5.0`. -/
def five : Double := .finite false 5629499534213120 (-50)

/-- The binary64 value `7.0`. -/
def seven : Double := .finite false 7881299347898368 (-50)

/-- The binary64 value `9.0`. -/
def nine : Double := .finite false 5066549580791808 (-49)

/-- A segment of three dimensions holding the constant polynomials `5`, `7` and `9`. -/
def segment579 : Segment :=
  { polynomials_ := [polyOf [five], polyOf [seven], polyOf [nine]],
    time_ := Double.zero, D_ := 3, N_ := 1 }

/-- Evaluator of constant polynomials: the constant coefficient at order `0`, zero at
every higher order. -/
def constEval (p : Polynomial) (_t : Double) (k : Nat) : Double :=
  if k = 0 then p.coefficients_.headD Double.zero else Double.zero

/-! ## Signs of binary64 values -/

namespace Double

theorem lt_zero_iff (d : Double) :
    lt d zero ↔ d = inf true ∨ ∃ m e, m ≠ 0 ∧ d = finite true m e := by
  cases d with
  | nan => simp [lt, zero]
  | inf s => simp [lt, zero]
  | finite s m e =>
    simp only [lt, zero, scaled]
    cases s <;> simp
    omega

theorem zero_le_iff (d : Double) :
    le zero d ↔ d = inf false ∨ ∃ m e, d = finite false m e ∨ d = finite true 0 e := by
  cases d with
  | nan => simp [le, zero]
  | inf s => simp [le, zero]
  | finite s m e =>
    simp only [le, zero, scaled]
    cases s <;> simp
    constructor
    · intro h
      by_contra hm
      have h1 : (0 : Int) < (m : Int) := by omega
      have h2 : (0 : Int) < (m : Int) * 2 ^ (e - -1074 ⊓ e).toNat :=
        mul_pos h1 (pow_pos (by norm_num) _)
      omega
    · rintro rfl
      simp

theorem roundNE_false_nonneg (m : Nat) (e : Int) : le zero (roundNE false m e) := by
  rw [zero_le_iff]
  unfold roundNE
  simp only
  split_ifs <;> simp

theorem mul_ofUInt64_c1em9_nonneg (ns : Nat) : le zero (mul (ofUInt64 ns) c1em9) := by
  have h : ∀ d, d = ofUInt64 ns → le zero (mul d c1em9) := by
    intro d hd
    have hd0 : le zero d := hd ▸ roundNE_false_nonneg ns 0
    rw [zero_le_iff] at hd0
    rcases hd0 with rfl | ⟨m, e, rfl | rfl⟩
    · rw [zero_le_iff]; simp [mul, c1em9]
    · exact roundNE_false_nonneg _ _
    · exfalso
      unfold ofUInt64 roundNE at hd
      simp only at hd
      split_ifs at hd <;> simp at hd
  exact h _ rfl

/-! ## Rounding to nearest -/

theorem bitLengthAux_zero (fuel : Nat) : bitLengthAux fuel 0 = 0 := by
  cases fuel <;> simp [bitLengthAux]

theorem bitLengthAux_spec : ∀ (fuel m : Nat), m ≤ fuel → m ≠ 0 →
    2 ^ (bitLengthAux fuel m - 1) ≤ m ∧ m < 2 ^ bitLengthAux fuel m := by
  intro fuel
  induction fuel with
  | zero => intro m h hm; omega
  | succ fuel ih =>
    intro m h hm
    rw [bitLengthAux, if_neg hm]
    by_cases h2 : m / 2 = 0
    · rw [h2, bitLengthAux_zero]
      have : m = 1 := by omega
      subst this
      simp
    · obtain ⟨h3, h4⟩ := ih (m / 2) (by omega) h2
      have hk : bitLengthAux fuel (m / 2) ≠ 0 := by
        intro h0
        rw [h0] at h4
        omega
      obtain ⟨k, hk⟩ := Nat.exists_eq_succ_of_ne_zero hk
      rw [hk] at h3 h4 ⊢
      simp only [Nat.succ_eq_add_one, Nat.add_sub_cancel] at h3 ⊢
      rw [pow_succ] at h4 ⊢
      rw [pow_succ]
      constructor <;> omega

theorem bitLength_spec (m : Nat) (hm : m ≠ 0) :
    2 ^ (bitLength m - 1) ≤ m ∧ m < 2 ^ bitLength m :=
  bitLengthAux_spec m m (Nat.le_refl m) hm

theorem bitLength_eq (m k : Nat) (h1 : 2 ^ k ≤ m) (h2 : m < 2 ^ (k + 1)) :
    bitLength m = k + 1 := by
  have hm : m ≠ 0 := by
    have := Nat.pos_pow_of_pos k (by norm_num : 0 < 2)
    omega
  obtain ⟨h3, h4⟩ := bitLength_spec m hm
  have h5 : k < bitLength m := (Nat.pow_lt_pow_iff_right (by norm_num)).mp (lt_of_le_of_lt h1 h4)
  have h6 : bitLength m - 1 < k + 1 :=
    (Nat.pow_lt_pow_iff_right (by norm_num)).mp (lt_of_le_of_lt h3 h2)
  omega

theorem zpow_split (E : Int) (k : Nat) : (2 : ℚ) ^ (E + k) = 2 ^ E * 2 ^ k := by
  rw [zpow_add₀ (by norm_num : (2 : ℚ) ≠ 0), zpow_natCast]

/-- The value being rounded lies in the binade of its bit length. -/
theorem binade (m : Nat) (e : Int) (hm : m ≠ 0) :
    (2 : ℚ) ^ 52 * 2 ^ (e + (bitLength m : Int) - 53) ≤ (m : ℚ) * 2 ^ e ∧
    (m : ℚ) * 2 ^ e < 2 ^ 53 * 2 ^ (e + (bitLength m : Int) - 53) := by
  obtain ⟨h1, h2⟩ := bitLength_spec m hm
  have hb : bitLength m ≠ 0 := by
    intro h0
    rw [h0] at h2
    omega
  obtain ⟨k, hk⟩ := Nat.exists_eq_succ_of_ne_zero hb
  rw [hk] at h1 h2 ⊢
  simp only [Nat.succ_eq_add_one, Nat.add_sub_cancel] at h1
  have he : (0 : ℚ) < 2 ^ e := zpow_pos (by norm_num) e
  have hE : (0 : ℚ) < 2 ^ (e + ((k + 1 : Nat) : Int) - 53) := zpow_pos (by norm_num) _
  have h3 : (2 : ℚ) ^ e * 2 ^ k = 2 ^ 52 * 2 ^ (e + ((k + 1 : Nat) : Int) - 53) := by
    have : e + (k : Int) = (e + ((k + 1 : Nat) : Int) - 53) + (52 : Nat) := by push_cast; ring
    rw [← zpow_split, this, zpow_split]
    ring
  have h1q : ((2 : ℚ) ^ k) ≤ (m : ℚ) := by exact_mod_cast h1
  have h2q : (m : ℚ) < (2 : ℚ) ^ (k + 1) := by exact_mod_cast h2
  constructor
  · rw [← h3]
    nlinarith
  · have : (2 : ℚ) ^ 53 * 2 ^ (e + ((k + 1 : Nat) : Int) - 53) = 2 ^ e * 2 ^ (k + 1) := by
      rw [pow_succ 2 k, ← mul_assoc, h3]
      ring
    rw [this]
    nlinarith

theorem roundNE_exact (m : Nat) (e : Int) (hm : m ≠ 0)
    (hlo : -1074 ≤ e + (bitLength m : Int) - 53) (hhi : e + (bitLength m : Int) - 53 ≤ 970)
    (hb : bitLength m ≤ 53) :
    roundNE false m e
      = finite false (m * 2 ^ (53 - bitLength m)) (e + (bitLength m : Int) - 53) := by
  unfold roundNE
  simp only [if_neg hm, max_eq_left hlo]
  rw [if_pos (by omega), if_neg (by omega)]
  have hs : (e - (e + (bitLength m : Int) - 53)).toNat = 53 - bitLength m := by omega
  rw [hs]

theorem roundNE_inexact (m : Nat) (e : Int) (hm : m ≠ 0)
    (hlo : -1074 ≤ e + (bitLength m : Int) - 53) (hhi : e + (bitLength m : Int) - 53 ≤ 970)
    (hb : 53 < bitLength m) :
    roundNE false m e =
      (if (if 2 ^ (bitLength m - 53 - 1) < m % 2 ^ (bitLength m - 53) ∨
              (m % 2 ^ (bitLength m - 53) = 2 ^ (bitLength m - 53 - 1) ∧
                m / 2 ^ (bitLength m - 53) % 2 = 1)
            then m / 2 ^ (bitLength m - 53) + 1 else m / 2 ^ (bitLength m - 53)) = 2 ^ 53
       then finite false (2 ^ 52) (e + (bitLength m : Int) - 53 + 1)
       else finite false
         (if 2 ^ (bitLength m - 53 - 1) < m % 2 ^ (bitLength m - 53) ∨
              (m % 2 ^ (bitLength m - 53) = 2 ^ (bitLength m - 53 - 1) ∧
                m / 2 ^ (bitLength m - 53) % 2 = 1)
            then m / 2 ^ (bitLength m - 53) + 1 else m / 2 ^ (bitLength m - 53))
         (e + (bitLength m : Int) - 53)) := by
  unfold roundNE
  simp only [if_neg hm, max_eq_left hlo]
  rw [if_neg (by omega)]
  have hs : (e + (bitLength m : Int) - 53 - e).toNat = bitLength m - 53 := by omega
  rw [hs]
  split_ifs <;> first | rfl | omega

/-- Rounding to nearest in the normal range: the result is a normal value `q * 2^E1`,
`E1` the exponent of the binade of the exact value, within `2^E1 / 2` of it. -/
theorem roundNE_spec (m : Nat) (e : Int) (hm : m ≠ 0)
    (hlo : -1074 ≤ e + (bitLength m : Int) - 53) (hhi : e + (bitLength m : Int) - 53 ≤ 970) :
    ∃ (M : Nat) (E : Int) (q : Nat),
      roundNE false m e = finite false M E ∧ 2 ^ 52 ≤ M ∧ M < 2 ^ 53 ∧
      e + (bitLength m : Int) - 53 ≤ E ∧ E ≤ e + (bitLength m : Int) - 52 ∧
      (M : ℚ) * 2 ^ E = (q : ℚ) * 2 ^ (e + (bitLength m : Int) - 53) ∧
      |(q : ℚ) * 2 ^ (e + (bitLength m : Int) - 53) - (m : ℚ) * 2 ^ e|
        ≤ 2 ^ (e + (bitLength m : Int) - 53) / 2 ∧
      (bitLength m ≤ 53 → (M : ℚ) * 2 ^ E = (m : ℚ) * 2 ^ e) := by
  obtain ⟨h1, h2⟩ := bitLength_spec m hm
  have hb0 : bitLength m ≠ 0 := by
    intro h0
    rw [h0] at h2
    omega
  have hE1 : (0 : ℚ) < 2 ^ (e + (bitLength m : Int) - 53) := zpow_pos (by norm_num) _
  by_cases hb : bitLength m ≤ 53
  · -- the value is representable
    have hval : ((m * 2 ^ (53 - bitLength m) : Nat) : ℚ) * 2 ^ (e + (bitLength m : Int) - 53)
        = (m : ℚ) * 2 ^ e := by
      have he : e = (e + (bitLength m : Int) - 53) + ((53 - bitLength m : Nat) : Int) := by omega
      conv_rhs => rw [he, zpow_split]
      push_cast
      ring
    have hp : 2 ^ (bitLength m - 1) * 2 ^ (53 - bitLength m) = 2 ^ 52 := by
      rw [← pow_add]
      congr 1
      omega
    have hp2 : 2 ^ bitLength m * 2 ^ (53 - bitLength m) = 2 ^ 53 := by
      rw [← pow_add]
      congr 1
      omega
    have hpos : 0 < 2 ^ (53 - bitLength m) := Nat.pos_pow_of_pos _ (by norm_num)
    refine ⟨m * 2 ^ (53 - bitLength m), e + (bitLength m : Int) - 53, m * 2 ^ (53 - bitLength m),
      roundNE_exact m e hm hlo hhi hb, ?_, ?_, le_refl _, by omega, rfl, ?_, fun _ => hval⟩
    · rw [← hp]
      exact Nat.mul_le_mul_right _ h1
    · rw [← hp2]
      exact Nat.mul_lt_mul_of_pos_right h2 hpos
    · rw [hval, sub_self, abs_zero]
      positivity
  · -- the value is rounded at `s = bitLength m - 53` bits
    have hb : 53 < bitLength m := by omega
    have hround := roundNE_inexact m e hm hlo hhi hb
    obtain ⟨k, hk⟩ : ∃ k, bitLength m - 53 = k + 1 := ⟨bitLength m - 54, by omega⟩
    rw [hk] at hround
    simp only [Nat.add_sub_cancel] at hround
    have hdm := Nat.div_add_mod m (2 ^ (k + 1))
    have hr := Nat.mod_lt m (Nat.pos_pow_of_pos (k + 1) (by norm_num : 0 < 2))
    generalize hq0 : m / 2 ^ (k + 1) = q0 at hround hdm
    generalize hr0 : m % 2 ^ (k + 1) = r at hround hdm hr
    have hpk : 2 ^ (k + 1) = 2 * 2 ^ k := by rw [pow_succ]; ring
    have hb1 : 2 ^ (bitLength m - 1) = 2 ^ 52 * 2 ^ (k + 1) := by
      rw [← pow_add]
      congr 1
      omega
    have hb2 : 2 ^ bitLength m = 2 ^ 53 * 2 ^ (k + 1) := by
      rw [← pow_add]
      congr 1
      omega
    have hq52 : 2 ^ 52 ≤ q0 := by
      rw [← hq0, Nat.le_div_iff_mul_le (Nat.pos_pow_of_pos _ (by norm_num)), ← hb1]
      exact h1
    have hq53 : q0 < 2 ^ 53 := by
      rw [← hq0, Nat.div_lt_iff_lt_mul (Nat.pos_pow_of_pos _ (by norm_num)), ← hb2]
      exact h2
    have hE : (2 : ℚ) ^ (e + (bitLength m : Int) - 53) = 2 ^ e * 2 ^ (k + 1) := by
      have : e + (bitLength m : Int) - 53 = e + ((k + 1 : Nat) : Int) := by omega
      rw [this, zpow_split]
    have he : (0 : ℚ) < 2 ^ e := zpow_pos (by norm_num) e
    have hmq : (m : ℚ) = 2 * 2 ^ k * q0 + r := by
      rw [← hdm, hpk]
      push_cast
      ring
    have hpkq : (2 : ℚ) ^ (k + 1) = 2 * 2 ^ k := by rw [pow_succ]; ring
    have hrq : (r : ℚ) < 2 * 2 ^ k := by
      rw [hpk] at hr
      exact_mod_cast hr
    -- the rounded significand
    have key : ∀ q1 : Nat, (q1 = q0 + 1 ∧ 2 ^ k ≤ r) ∨ (q1 = q0 ∧ r ≤ 2 ^ k) →
        |(q1 : ℚ) * 2 ^ (e + (bitLength m : Int) - 53) - (m : ℚ) * 2 ^ e|
          ≤ 2 ^ (e + (bitLength m : Int) - 53) / 2 := by
      intro q1 hq1
      rw [hE, hmq, hpkq]
      have hd : |(q1 : ℚ) * (2 * 2 ^ k) - (2 * 2 ^ k * q0 + r)| ≤ 2 ^ k := by
        rcases hq1 with ⟨rfl, hle⟩ | ⟨rfl, hle⟩
        · have hle' : ((2 : ℚ) ^ k) ≤ r := by exact_mod_cast hle
          rw [abs_le]
          push_cast
          constructor <;> nlinarith
        · have hle' : (r : ℚ) ≤ 2 ^ k := by exact_mod_cast hle
          have hr0' : (0 : ℚ) ≤ r := Nat.cast_nonneg r
          rw [abs_le]
          constructor <;> nlinarith
      have : (q1 : ℚ) * (2 ^ e * (2 * 2 ^ k)) - (2 * 2 ^ k * q0 + r) * 2 ^ e
          = 2 ^ e * ((q1 : ℚ) * (2 * 2 ^ k) - (2 * 2 ^ k * q0 + r)) := by ring
      rw [this, abs_mul, abs_of_pos he]
      calc (2 : ℚ) ^ e * |(q1 : ℚ) * (2 * 2 ^ k) - (2 * 2 ^ k * q0 + r)|
          ≤ 2 ^ e * 2 ^ k := mul_le_mul_of_nonneg_left hd he.le
        _ = 2 ^ e * (2 * 2 ^ k) / 2 := by ring
    by_cases hup : 2 ^ k < r ∨ (r = 2 ^ k ∧ q0 % 2 = 1)
    · rw [if_pos hup] at hround
      have hq1 : (q0 + 1 = q0 + 1 ∧ 2 ^ k ≤ r) ∨ (q0 + 1 = q0 ∧ r ≤ 2 ^ k) :=
        Or.inl ⟨rfl, by rcases hup with h | ⟨h, _⟩ <;> omega⟩
      by_cases hc : q0 + 1 = 2 ^ 53
      · rw [if_pos hc] at hround
        refine ⟨2 ^ 52, e + (bitLength m : Int) - 53 + 1, q0 + 1, hround, le_refl _,
          by norm_num, by omega, by omega, ?_, key _ hq1, fun h => absurd h (by omega)⟩
        rw [hc, zpow_add_one₀ (by norm_num : (2 : ℚ) ≠ 0)]
        push_cast
        ring
      · rw [if_neg hc] at hround
        exact ⟨q0 + 1, e + (bitLength m : Int) - 53, q0 + 1, hround, by omega, by omega,
          le_refl _, by omega, rfl, key _ hq1, fun h => absurd h (by omega)⟩
    · rw [if_neg hup, if_neg (by omega)] at hround
      have hq1 : (q0 = q0 + 1 ∧ 2 ^ k ≤ r) ∨ (q0 = q0 ∧ r ≤ 2 ^ k) :=
        Or.inr ⟨rfl, by
          by_contra hlt
          exact hup (Or.inl (by omega))⟩
      exact ⟨q0, e + (bitLength m : Int) - 53, q0, hround, hq52, hq53,
        le_refl _, by omega, rfl, key _ hq1, fun h => absurd h (by omega)⟩

/-! ## The nanosecond round trip -/

theorem c1e9_eq : c1e9 = finite false 8388608000000000 (-23) := by decide

/-- The truncating cast of a non-negative finite value is the floor of its exact value. -/
theorem toUInt64_eq_floor (M : Nat) (E : Int) :
    toUInt64 (finite false M E) =
      if ⌊(M : ℚ) * 2 ^ E⌋₊ < 2 ^ 64 then some ⌊(M : ℚ) * 2 ^ E⌋₊ else none := by
  have hv : (if 0 ≤ E then M * 2 ^ E.toNat else M / 2 ^ (-E).toNat) = ⌊(M : ℚ) * 2 ^ E⌋₊ := by
    by_cases hE : 0 ≤ E
    · rw [if_pos hE]
      obtain ⟨n, rfl⟩ := Int.eq_ofNat_of_zero_le hE
      rw [Int.toNat_natCast, zpow_natCast]
      have : (M : ℚ) * 2 ^ n = ((M * 2 ^ n : Nat) : ℚ) := by push_cast; ring
      rw [this, Nat.floor_natCast]
    · rw [if_neg hE]
      obtain ⟨n, hn⟩ : ∃ n : Nat, E = -(n : Int) := ⟨(-E).toNat, by omega⟩
      subst hn
      rw [neg_neg, Int.toNat_natCast, zpow_neg, zpow_natCast]
      have : (M : ℚ) * ((2 : ℚ) ^ n)⁻¹ = (M : ℚ) / ((2 ^ n : Nat) : ℚ) := by
        push_cast
        rw [div_eq_mul_inv]
      rw [this, Nat.floor_div_eq_div]
  unfold toUInt64
  simp only [hv]
  simp

theorem toUInt64_of_floor (M : Nat) (E : Int) (n : Nat) (h1 : (n : ℚ) ≤ (M : ℚ) * 2 ^ E)
    (h2 : (M : ℚ) * 2 ^ E < n + 1) (hn : n < 2 ^ 64) :
    toUInt64 (finite false M E) = some n := by
  have hf : ⌊(M : ℚ) * 2 ^ E⌋₊ = n :=
    (Nat.floor_eq_iff (le_trans (Nat.cast_nonneg n) h1)).mpr ⟨h1, h2⟩
  rw [toUInt64_eq_floor, hf, if_pos hn]

theorem bitLength_mul_normal (M1 M2 : Nat) (h1 : 2 ^ 52 ≤ M1) (h1' : M1 < 2 ^ 53)
    (h2 : 2 ^ 52 ≤ M2) (h2' : M2 < 2 ^ 53) :
    M1 * M2 ≠ 0 ∧ 105 ≤ bitLength (M1 * M2) ∧ bitLength (M1 * M2) ≤ 106 := by
  have hlo : 2 ^ 104 ≤ M1 * M2 := by
    calc 2 ^ 104 = 2 ^ 52 * 2 ^ 52 := by norm_num
      _ ≤ M1 * M2 := Nat.mul_le_mul h1 h2
  have hhi : M1 * M2 < 2 ^ 106 := by
    calc M1 * M2 < 2 ^ 53 * 2 ^ 53 := Nat.mul_lt_mul'' h1' h2'
      _ = 2 ^ 106 := by norm_num
  have hne : M1 * M2 ≠ 0 := by
    have : 0 < 2 ^ 104 := by norm_num
    omega
  obtain ⟨h3, h4⟩ := bitLength_spec (M1 * M2) hne
  have h5 : 104 < bitLength (M1 * M2) :=
    (Nat.pow_lt_pow_iff_right (by norm_num)).mp (lt_of_le_of_lt hlo h4)
  have h6 : bitLength (M1 * M2) - 1 < 106 :=
    (Nat.pow_lt_pow_iff_right (by norm_num)).mp (lt_of_le_of_lt h3 hhi)
  exact ⟨hne, by omega, by omega⟩

/-- The product of two positive normal values, away from overflow and underflow: a normal
value `q * 2^Eb` in the binade `[2^52 * 2^Eb, 2^53 * 2^Eb]` of the exact product `v`,
within `2^Eb / 2` of it. -/
theorem mul_normal (M1 M2 : Nat) (E1 E2 : Int) (h1 : 2 ^ 52 ≤ M1) (h1' : M1 < 2 ^ 53)
    (h2 : 2 ^ 52 ≤ M2) (h2' : M2 < 2 ^ 53) (hlo : -1126 ≤ E1 + E2) (hhi : E1 + E2 ≤ 917) :
    ∃ (M : Nat) (E : Int) (q : Nat) (Eb : Int),
      mul (finite false M1 E1) (finite false M2 E2) = finite false M E ∧
      2 ^ 52 ≤ M ∧ M < 2 ^ 53 ∧ E1 + E2 + 52 ≤ E ∧ E ≤ E1 + E2 + 54 ∧
      (M : ℚ) * 2 ^ E = (q : ℚ) * 2 ^ Eb ∧
      |(q : ℚ) * 2 ^ Eb - ((M1 : ℚ) * 2 ^ E1) * ((M2 : ℚ) * 2 ^ E2)| ≤ 2 ^ Eb / 2 ∧
      (2 : ℚ) ^ 52 * 2 ^ Eb ≤ ((M1 : ℚ) * 2 ^ E1) * ((M2 : ℚ) * 2 ^ E2) ∧
      ((M1 : ℚ) * 2 ^ E1) * ((M2 : ℚ) * 2 ^ E2) < 2 ^ 53 * 2 ^ Eb := by
  obtain ⟨hne, hb1, hb2⟩ := bitLength_mul_normal M1 M2 h1 h1' h2 h2'
  obtain ⟨M, E, q, hr, hM1, hM2, hE1, hE2, hval, herr, _⟩ :=
    roundNE_spec (M1 * M2) (E1 + E2) hne (by omega) (by omega)
  obtain ⟨hbin1, hbin2⟩ := binade (M1 * M2) (E1 + E2) hne
  have hv : ((M1 : ℚ) * 2 ^ E1) * ((M2 : ℚ) * 2 ^ E2)
      = ((M1 * M2 : Nat) : ℚ) * 2 ^ (E1 + E2) := by
    rw [zpow_add₀ (by norm_num : (2 : ℚ) ≠ 0)]
    push_cast
    ring
  refine ⟨M, E, q, E1 + E2 + (bitLength (M1 * M2) : Int) - 53, ?_, hM1, hM2, by omega, by omega,
    hval, ?_, ?_, ?_⟩
  · simpa [mul] using hr
  · rw [hv]; exact herr
  · rw [hv]; exact hbin1
  · rw [hv]; exact hbin2

theorem ofUInt64_normal (ns : Nat) (h0 : ns ≠ 0) (h : ns < 2 ^ 53) :
    ∃ (M : Nat) (E : Int), ofUInt64 ns = finite false M E ∧ 2 ^ 52 ≤ M ∧ M < 2 ^ 53 ∧
      -52 ≤ E ∧ E ≤ 0 ∧ (M : ℚ) * 2 ^ E = (ns : ℚ) := by
  obtain ⟨h1, h2⟩ := bitLength_spec ns h0
  have hb0 : bitLength ns ≠ 0 := by
    intro hz
    rw [hz] at h2
    omega
  have hb : bitLength ns - 1 < 53 :=
    (Nat.pow_lt_pow_iff_right (by norm_num)).mp (lt_of_le_of_lt h1 h)
  obtain ⟨M, E, q, hr, hM1, hM2, _, _, _, _, hex⟩ :=
    roundNE_spec ns 0 h0 (by omega) (by omega)
  have hr' := roundNE_exact ns 0 h0 (by omega) (by omega) (by omega)
  rw [hr] at hr'
  injection hr' with _ _ hE
  refine ⟨M, E, hr, hM1, hM2, by omega, by omega, ?_⟩
  rw [hex (by omega)]
  simp

/-- A power of two below `2^k` is at most `2^(k-1)`. -/
theorem zpow_le_of_lt (E k : Int) (h : (2 : ℚ) ^ E < 2 ^ k) : (2 : ℚ) ^ E ≤ 2 ^ (k - 1) := by
  have h1 : E < k := (zpow_lt_zpow_iff_right₀ (by norm_num : (1 : ℚ) < 2)).mp h
  exact zpow_le_zpow_right₀ (by norm_num) (by omega)

/-- Multiples of `2^E`, `E ≤ 0`: a multiple above `n - 2^E` is at least the integer `n`. -/
theorem lattice_ge (q n : Nat) (E : Int) (hE : E ≤ 0)
    (h : (n : ℚ) - 2 ^ E < (q : ℚ) * 2 ^ E) : (n : ℚ) ≤ (q : ℚ) * 2 ^ E := by
  obtain ⟨k, hk⟩ : ∃ k : Nat, E = -(k : Int) := ⟨(-E).toNat, by omega⟩
  subst hk
  have hp : (0 : ℚ) < 2 ^ k := by positivity
  rw [zpow_neg, zpow_natCast] at h ⊢
  have h1 : (n : ℚ) * 2 ^ k - 1 < q := by
    have := mul_lt_mul_of_pos_right h hp
    rw [sub_mul, mul_assoc, inv_mul_cancel₀ hp.ne'] at this
    simpa using this
  have h2 : n * 2 ^ k < q + 1 := by
    have : ((n * 2 ^ k : Nat) : ℚ) < ((q + 1 : Nat) : ℚ) := by
      push_cast
      linarith
    exact_mod_cast this
  have h3 : ((n * 2 ^ k : Nat) : ℚ) ≤ (q : ℚ) := by
    exact_mod_cast Nat.lt_succ_iff.mp h2
  rw [le_mul_inv_iff₀ hp]
  exact_mod_cast h3

/-- Nanosecond round trip below `2^52`: `static_cast<uint64_t>(1.0e9 * (ns * 1.0e-9))`
is `ns`. -/
theorem roundtrip_lt (ns : Nat) (h0 : ns ≠ 0) (h : ns < 2 ^ 52) :
    (mul c1e9 (mul (ofUInt64 ns) c1em9)).toUInt64 = some ns := by
  obtain ⟨M0, E0, hx, hM0, hM0', hE0, hE0', hxv⟩ := ofUInt64_normal ns h0 (by omega)
  obtain ⟨Y, Ey, qy, Eyb, hy, hY, hY', hEy, hEy', hyv, hyerr, hyb1, hyb2⟩ :=
    mul_normal M0 4835703278458517 E0 (-82) hM0 hM0' (by norm_num) (by norm_num)
      (by omega) (by omega)
  obtain ⟨Z, Ez, qz, Ezb, hz, hZ, hZ', hEz, hEz', hzv, hzerr, hzb1, hzb2⟩ :=
    mul_normal 8388608000000000 Y (-23) Ey (by norm_num) (by norm_num) hY hY'
      (by omega) (by omega)
  rw [hx, c1em9, hy, c1e9_eq, hz]
  -- the exact values
  have hn1 : (1 : ℚ) ≤ ns := by
    have : 1 ≤ ns := Nat.one_le_iff_ne_zero.mpr h0
    exact_mod_cast this
  have hn2 : (ns : ℚ) ≤ 2 ^ 52 - 1 := by
    have : ns + 1 ≤ 2 ^ 52 := h
    have : ((ns + 1 : Nat) : ℚ) ≤ ((2 ^ 52 : Nat) : ℚ) := by exact_mod_cast this
    push_cast at this
    linarith
  have hc : ((4835703278458517 : Nat) : ℚ) * 2 ^ (-82 : Int)
      = 4835703278458517 / 4835703278458516698824704 := by
    rw [zpow_neg]
    norm_num
  have ht : ((8388608000000000 : Nat) : ℚ) * 2 ^ (-23 : Int) = 1000000000 := by
    rw [zpow_neg]
    norm_num
  rw [hxv, hc] at hyerr hyb1 hyb2
  rw [ht, hyv] at hzerr hzb1 hzb2
  have hpy : (0 : ℚ) < 2 ^ Eyb := zpow_pos (by norm_num) _
  have hp : (0 : ℚ) < 2 ^ Ezb := zpow_pos (by norm_num) _
  obtain ⟨hy1, hy2⟩ := abs_le.mp hyerr
  obtain ⟨hz1, hz2⟩ := abs_le.mp hzerr
  -- the quantum of `ns * 1.0e-9` is at most `2^-30`
  have hpy30 : (2 : ℚ) ^ Eyb ≤ 2 ^ (-29 - 1 : Int) := by
    apply zpow_le_of_lt
    have : (2 : ℚ) ^ (-29 : Int) = 1 / 536870912 := by rw [zpow_neg]; norm_num
    rw [this]
    linarith
  have h30 : (2 : ℚ) ^ (-29 - 1 : Int) = 1 / 1073741824 := by
    rw [show (-29 - 1 : Int) = -30 by norm_num, zpow_neg]
    norm_num
  rw [h30] at hpy30
  -- the quantum of the product with `1.0e9` is at most `1/2`
  have hp1 : (2 : ℚ) ^ Ezb ≤ 2 ^ (0 - 1 : Int) := by
    apply zpow_le_of_lt
    rw [zpow_zero]
    linarith
  have hEzb : Ezb ≤ 0 := by
    have := (zpow_le_zpow_iff_right₀ (by norm_num : (1 : ℚ) < 2)).mp hp1
    omega
  have h12 : (2 : ℚ) ^ (0 - 1 : Int) = 1 / 2 := by
    rw [show (0 - 1 : Int) = -1 by norm_num, zpow_neg]
    norm_num
  rw [h12] at hp1
  refine toUInt64_of_floor Z Ez ns ?_ ?_ (by omega)
  · rw [hzv]
    apply lattice_ge qz ns Ezb hEzb
    linarith
  · rw [hzv]
    linarith

theorem roundNE_zero (neg : Bool) (e : Int) : roundNE neg 0 e = finite neg 0 (-1074) := by
  simp [roundNE]

theorem toUInt64_zero_significand (neg : Bool) (e : Int) :
    toUInt64 (finite neg 0 e) = some 0 := by
  unfold toUInt64
  simp

theorem roundtrip_zero : (mul c1e9 (mul (ofUInt64 0) c1em9)).toUInt64 = some 0 := by
  rw [ofUInt64, roundNE_zero, c1em9, c1e9_eq]
  simp only [mul, Nat.zero_mul, Nat.mul_zero, roundNE_zero]
  exact toUInt64_zero_significand _ _

set_option maxRecDepth 100000 in
theorem roundtrip_top (j : Nat) (hj : j < 7) :
    (mul c1e9 (mul (ofUInt64 (2 ^ 52 + j)) c1em9)).toUInt64 = some (2 ^ 52 + j) := by
  interval_cases j <;> decide

/-- Nanosecond round trip: exact for every `ns < 2^52 + 7`. -/
theorem roundtrip (ns : Nat) (h : ns < 4503599627370503) :
    (mul c1e9 (mul (ofUInt64 ns) c1em9)).toUInt64 = some ns := by
  by_cases h0 : ns = 0
  · subst h0
    exact roundtrip_zero
  · by_cases h52 : ns < 2 ^ 52
    · exact roundtrip_lt ns h0 h52
    · obtain ⟨j, rfl⟩ : ∃ j, ns = 2 ^ 52 + j := ⟨ns - 2 ^ 52, by omega⟩
      exact roundtrip_top j (by omega)

set_option maxRecDepth 100000 in
theorem roundtrip_fails :
    (mul c1e9 (mul (ofUInt64 4503599627370503) c1em9)).toUInt64 = some 4503599627370504 := by
  decide

theorem roundNE_finite_sign (neg neg' : Bool) (m M : Nat) (e E : Int)
    (h : roundNE neg m e = finite neg' M E) : neg' = neg ∧ (m = 0 → M = 0) := by
  unfold roundNE at h
  simp only at h
  split_ifs at h with h0 <;> injection h with h1 h2 h3
  all_goals exact ⟨h1.symm, fun hm => by first | exact h2.symm | exact absurd hm h0⟩

/-- The conversion of a `uint64_t` is a normal value within relative `2^-53` of it. -/
theorem ofUInt64_spec (ns : Nat) (h0 : ns ≠ 0) (h : ns < 2 ^ 64) :
    ∃ (M : Nat) (E : Int), ofUInt64 ns = finite false M E ∧ 2 ^ 52 ≤ M ∧ M < 2 ^ 53 ∧
      -52 ≤ E ∧ E ≤ 12 ∧ |(M : ℚ) * 2 ^ E - (ns : ℚ)| ≤ (ns : ℚ) / 2 ^ 53 := by
  obtain ⟨h1, h2⟩ := bitLength_spec ns h0
  have hb0 : bitLength ns ≠ 0 := by
    intro hz
    rw [hz] at h2
    omega
  have hb : bitLength ns - 1 < 64 :=
    (Nat.pow_lt_pow_iff_right (by norm_num)).mp (lt_of_le_of_lt h1 h)
  obtain ⟨M, E, q, hr, hM1, hM2, hE1, hE2, hval, herr, _⟩ :=
    roundNE_spec ns 0 h0 (by omega) (by omega)
  obtain ⟨hbin, _⟩ := binade ns 0 h0
  refine ⟨M, E, hr, hM1, hM2, by omega, by omega, ?_⟩
  rw [hval]
  simp only [zpow_zero, mul_one] at herr hbin
  refine le_trans herr ?_
  have hp : (0 : ℚ) < 2 ^ (0 + (bitLength ns : Int) - 53) := zpow_pos (by norm_num) _
  rw [div_le_div_iff₀ (by norm_num) (by norm_num)]
  linarith

/-- The seconds value of a nanosecond count: `ns * 1.0e-9` is a non-negative finite value
within relative `2^-51` of `ns / 10^9`. -/
theorem mul_ofUInt64_c1em9_spec (ns : Nat) (h : ns < 2 ^ 64) :
    ∃ (M : Nat) (E : Int), mul (ofUInt64 ns) c1em9 = finite false M E ∧
      |(M : ℚ) * 2 ^ E - (ns : ℚ) / 10 ^ 9| ≤ (ns : ℚ) / 10 ^ 9 / 2 ^ 51 := by
  by_cases h0 : ns = 0
  · subst h0
    refine ⟨0, -1074, ?_, by simp⟩
    rw [ofUInt64, roundNE_zero, c1em9]
    simp only [mul, Nat.zero_mul, roundNE_zero, Bool.xor_false]
  · obtain ⟨M0, E0, hx, hM0, hM0', hE0, hE0', hxe⟩ := ofUInt64_spec ns h0 h
    obtain ⟨Y, Ey, qy, Eyb, hy, _, _, _, _, hyv, hyerr, hyb1, _⟩ :=
      mul_normal M0 4835703278458517 E0 (-82) hM0 hM0' (by norm_num) (by norm_num)
        (by omega) (by omega)
    refine ⟨Y, Ey, by rw [hx, c1em9, hy], ?_⟩
    have hc : ((4835703278458517 : Nat) : ℚ) * 2 ^ (-82 : Int)
        = 4835703278458517 / 4835703278458516698824704 := by
      rw [zpow_neg]
      norm_num
    rw [hc] at hyerr hyb1
    rw [hyv]
    have hn : (0 : ℚ) < ns := by
      have : 0 < ns := Nat.pos_of_ne_zero h0
      exact_mod_cast this
    obtain ⟨hx1, hx2⟩ := abs_le.mp hxe
    obtain ⟨hy1, hy2⟩ := abs_le.mp hyerr
    have hpy : (0 : ℚ) < 2 ^ Eyb := zpow_pos (by norm_num) _
    rw [abs_le]
    constructor <;> linarith

/-! ## Rounding to nearest, all ranges -/

/-- Rounding a significand at `k + 1` bits to nearest, ties to even. -/
theorem round_shift (m k : Nat) :
    ∃ q : Nat,
      q = (if 2 ^ k < m % 2 ^ (k + 1) ∨ (m % 2 ^ (k + 1) = 2 ^ k ∧ m / 2 ^ (k + 1) % 2 = 1)
            then m / 2 ^ (k + 1) + 1 else m / 2 ^ (k + 1)) ∧
      m / 2 ^ (k + 1) ≤ q ∧ q ≤ m / 2 ^ (k + 1) + 1 ∧
      |(q : ℚ) * 2 ^ (k + 1) - (m : ℚ)| ≤ 2 ^ (k + 1) / 2 ∧
      (|(q : ℚ) * 2 ^ (k + 1) - (m : ℚ)| = 2 ^ (k + 1) / 2 → q % 2 = 0) := by
  have hdm := Nat.div_add_mod m (2 ^ (k + 1))
  have hr := Nat.mod_lt m (Nat.pos_pow_of_pos (k + 1) (by norm_num : 0 < 2))
  generalize m / 2 ^ (k + 1) = q0 at hdm ⊢
  generalize m % 2 ^ (k + 1) = r at hdm hr ⊢
  have hpk : 2 ^ (k + 1) = 2 * 2 ^ k := by rw [pow_succ]; ring
  have hpkq : (2 : ℚ) ^ (k + 1) = 2 * 2 ^ k := by rw [pow_succ]; ring
  have hmq : (m : ℚ) = 2 * 2 ^ k * q0 + r := by
    rw [← hdm, hpk]
    push_cast
    ring
  have hrq : (r : ℚ) < 2 * 2 ^ k := by
    rw [hpk] at hr
    exact_mod_cast hr
  have hr0 : (0 : ℚ) ≤ r := Nat.cast_nonneg r
  have hk0 : (0 : ℚ) < 2 ^ k := by positivity
  by_cases hup : 2 ^ k < r ∨ (r = 2 ^ k ∧ q0 % 2 = 1)
  · refine ⟨q0 + 1, by rw [if_pos hup], by omega, le_refl _, ?_, ?_⟩
    · have hle : ((2 : ℚ) ^ k) ≤ r := by
        have : 2 ^ k ≤ r := by rcases hup with h | ⟨h, _⟩ <;> omega
        exact_mod_cast this
      rw [hpkq, hmq, abs_le]
      push_cast
      constructor <;> nlinarith
    · intro htie
      rcases hup with h | ⟨_, h⟩
      · exfalso
        have hlt : ((2 : ℚ) ^ k) < r := by exact_mod_cast h
        rw [hpkq, hmq] at htie
        push_cast at htie
        have h1 : ((q0 : ℚ) + 1) * (2 * 2 ^ k) - (2 * 2 ^ k * q0 + r) = 2 * 2 ^ k - r := by ring
        rw [h1, abs_of_pos (by linarith)] at htie
        linarith
      · omega
  · refine ⟨q0, by rw [if_neg hup], le_refl _, by omega, ?_, ?_⟩
    · have hle : (r : ℚ) ≤ 2 ^ k := by
        have : r ≤ 2 ^ k := by
          by_contra hlt
          exact hup (Or.inl (by omega))
        exact_mod_cast this
      rw [hpkq, hmq, abs_le]
      constructor <;> nlinarith
    · intro htie
      rw [hpkq, hmq] at htie
      have h1 : (q0 : ℚ) * (2 * 2 ^ k) - (2 * 2 ^ k * q0 + r) = -r := by ring
      rw [h1, abs_neg, abs_of_nonneg hr0] at htie
      have hrk : r = 2 ^ k := by
        have : (r : ℚ) = ((2 ^ k : Nat) : ℚ) := by
          push_cast
          linarith
        exact_mod_cast this
      by_contra hodd
      exact hup (Or.inr ⟨hrk, by omega⟩)

/-- Rounding to nearest, every range: with `E1` the exponent of the quantum of the exact
value `v = m * 2^e` (clamped below at `-1074`), the result is `q * 2^E1` for the integer
`q` nearest to `v / 2^E1`, even on a tie; the result is an infinity exactly when
`q * 2^E1` reaches `2^1024`. -/
theorem roundNE_general (m : Nat) (e : Int) (hm : m ≠ 0) :
    ∃ q : Nat,
      |(q : ℚ) * 2 ^ (max (e + (bitLength m : Int) - 53) (-1074)) - (m : ℚ) * 2 ^ e|
        ≤ 2 ^ (max (e + (bitLength m : Int) - 53) (-1074)) / 2 ∧
      (|(q : ℚ) * 2 ^ (max (e + (bitLength m : Int) - 53) (-1074)) - (m : ℚ) * 2 ^ e|
        = 2 ^ (max (e + (bitLength m : Int) - 53) (-1074)) / 2 → q % 2 = 0) ∧
      q ≤ 2 ^ 53 ∧ (-1074 ≤ e + (bitLength m : Int) - 53 → 2 ^ 52 ≤ q) ∧
      ((971 < max (e + (bitLength m : Int) - 53) (-1074) ∨
          (max (e + (bitLength m : Int) - 53) (-1074) = 971 ∧ q = 2 ^ 53)) →
        roundNE false m e = inf false) ∧
      (¬ (971 < max (e + (bitLength m : Int) - 53) (-1074) ∨
          (max (e + (bitLength m : Int) - 53) (-1074) = 971 ∧ q = 2 ^ 53)) →
        ∃ (M : Nat) (E : Int), roundNE false m e = finite false M E ∧
          (M : ℚ) * 2 ^ E = (q : ℚ) * 2 ^ (max (e + (bitLength m : Int) - 53) (-1074))) := by
  obtain ⟨h1, h2⟩ := bitLength_spec m hm
  have hb0 : bitLength m ≠ 0 := by
    intro h0
    rw [h0] at h2
    omega
  have hmax1 : e + (bitLength m : Int) - 53 ≤ max (e + (bitLength m : Int) - 53) (-1074) :=
    le_max_left _ _
  have hmax2 : (-1074 : Int) ≤ max (e + (bitLength m : Int) - 53) (-1074) := le_max_right _ _
  have hmax3 : -1074 ≤ e + (bitLength m : Int) - 53 →
      max (e + (bitLength m : Int) - 53) (-1074) = e + (bitLength m : Int) - 53 :=
    fun h => max_eq_left h
  unfold roundNE
  simp only [if_neg hm]
  generalize max (e + (bitLength m : Int) - 53) (-1074) = E1 at hmax1 hmax2 hmax3 ⊢
  have hE1 : (0 : ℚ) < 2 ^ E1 := zpow_pos (by norm_num) _
  have he : (0 : ℚ) < 2 ^ e := zpow_pos (by norm_num) e
  by_cases hex : E1 ≤ e
  · -- the value is a multiple of the quantum
    obtain ⟨n, hn⟩ : ∃ n : Nat, e = E1 + (n : Int) := ⟨(e - E1).toNat, by omega⟩
    have hn' : (e - E1).toNat = n := by omega
    have hval : ((m * 2 ^ n : Nat) : ℚ) * 2 ^ E1 = (m : ℚ) * 2 ^ e := by
      rw [hn, zpow_split]
      push_cast
      ring
    have hq53 : m * 2 ^ n < 2 ^ 53 := by
      have hp : 2 ^ bitLength m * 2 ^ n ≤ 2 ^ 53 := by
        rw [← pow_add]
        exact Nat.pow_le_pow_right (by norm_num) (by omega)
      have hpos : 0 < 2 ^ n := Nat.pos_pow_of_pos _ (by norm_num)
      exact lt_of_lt_of_le (Nat.mul_lt_mul_of_pos_right h2 hpos) hp
    refine ⟨m * 2 ^ n, ?_, ?_, hq53.le, ?_, ?_, ?_⟩
    · rw [hval, sub_self, abs_zero]
      positivity
    · intro htie
      rw [hval, sub_self, abs_zero] at htie
      linarith
    · intro hnorm
      have hE := hmax3 hnorm
      have hp : 2 ^ (bitLength m - 1) * 2 ^ n = 2 ^ 52 := by
        rw [← pow_add]
        congr 1
        omega
      rw [← hp]
      exact Nat.mul_le_mul_right _ h1
    · rintro (hov | ⟨_, hq⟩)
      · rw [if_pos hex, if_pos hov]
      · omega
    · intro hno
      rw [if_pos hex, if_neg (by omega), hn']
      exact ⟨_, _, rfl, rfl⟩
  · -- the value is rounded at `E1 - e` bits
    obtain ⟨k, hk⟩ : ∃ k : Nat, E1 = e + ((k + 1 : Nat) : Int) := ⟨(E1 - e).toNat - 1, by omega⟩
    have hk' : (E1 - e).toNat = k + 1 := by omega
    obtain ⟨q, hq, hq1, hq2, herr, htie⟩ := round_shift m k
    have hpE : (2 : ℚ) ^ E1 = 2 ^ e * 2 ^ (k + 1) := by rw [hk, zpow_split]
    have hpos : 0 < 2 ^ (k + 1) := Nat.pos_pow_of_pos _ (by norm_num)
    have hq0 : m / 2 ^ (k + 1) < 2 ^ 53 := by
      rw [Nat.div_lt_iff_lt_mul hpos]
      have hp : 2 ^ bitLength m ≤ 2 ^ 53 * 2 ^ (k + 1) := by
        rw [← pow_add]
        exact Nat.pow_le_pow_right (by norm_num) (by omega)
      exact lt_of_lt_of_le h2 hp
    have hfac : (q : ℚ) * (2 ^ e * 2 ^ (k + 1)) - (m : ℚ) * 2 ^ e
        = 2 ^ e * ((q : ℚ) * 2 ^ (k + 1) - (m : ℚ)) := by ring
    rw [if_neg hex, hk']
    simp only [Nat.add_sub_cancel]
    rw [← hq]
    refine ⟨q, ?_, ?_, by omega, ?_, ?_, ?_⟩
    · rw [hpE, hfac, abs_mul, abs_of_pos he]
      calc (2 : ℚ) ^ e * |(q : ℚ) * 2 ^ (k + 1) - (m : ℚ)|
          ≤ 2 ^ e * (2 ^ (k + 1) / 2) := mul_le_mul_of_nonneg_left herr he.le
        _ = 2 ^ e * 2 ^ (k + 1) / 2 := by ring
    · intro h
      apply htie
      rw [hpE, hfac, abs_mul, abs_of_pos he] at h
      have h3 : (2 : ℚ) ^ e * |(q : ℚ) * 2 ^ (k + 1) - (m : ℚ)| = 2 ^ e * (2 ^ (k + 1) / 2) := by
        rw [h]
        ring
      exact mul_left_cancel₀ he.ne' h3
    · intro hnorm
      have hE := hmax3 hnorm
      have hp : 2 ^ 52 * 2 ^ (k + 1) = 2 ^ (bitLength m - 1) := by
        rw [← pow_add]
        congr 1
        omega
      have : 2 ^ 52 ≤ m / 2 ^ (k + 1) := by
        rw [Nat.le_div_iff_mul_le hpos, hp]
        exact h1
      omega
    · rintro (hov | ⟨hE, hq53⟩)
      · rw [if_pos (by split_ifs <;> omega)]
      · rw [if_pos hq53, if_pos (by omega)]
    · intro hno
      by_cases hc : q = 2 ^ 53
      · rw [if_pos hc, if_pos hc, if_neg (by omega)]
        refine ⟨_, _, rfl, ?_⟩
        rw [hc, zpow_add_one₀ (by norm_num : (2 : ℚ) ≠ 0)]
        push_cast
        ring
      · rw [if_neg hc, if_neg hc, if_neg (by omega)]
        exact ⟨_, _, rfl, rfl⟩

/-- Same quantum: the nearest integers, even on ties, are ordered as the values. -/
theorem nearest_even_mono (qa qb : Nat) (p va vb : ℚ) (hp : 0 < p) (hle : va ≤ vb)
    (ha : |(qa : ℚ) * p - va| ≤ p / 2) (hat : |(qa : ℚ) * p - va| = p / 2 → qa % 2 = 0)
    (hb : |(qb : ℚ) * p - vb| ≤ p / 2) (hbt : |(qb : ℚ) * p - vb| = p / 2 → qb % 2 = 0) :
    qa ≤ qb := by
  by_contra hlt
  have h1 : qb + 1 ≤ qa := by omega
  have h1q : (qb : ℚ) + 1 ≤ qa := by exact_mod_cast h1
  have hAB : (qb : ℚ) * p + p ≤ (qa : ℚ) * p := by
    have := mul_le_mul_of_nonneg_right h1q hp.le
    linarith
  obtain ⟨ha1, ha2⟩ := abs_le.mp ha
  obtain ⟨hb1, hb2⟩ := abs_le.mp hb
  have hA : (qa : ℚ) * p - va = p / 2 := by linarith
  have hB : (qb : ℚ) * p - vb = -(p / 2) := by linarith
  have hqa := hat (by rw [hA, abs_of_pos (by linarith)])
  have hqb := hbt (by rw [hB, abs_neg, abs_of_pos (by linarith)])
  have hq : (qa : ℚ) * p = ((qb : ℚ) + 1) * p := by linarith
  have hq' : (qa : ℚ) = (qb : ℚ) + 1 := mul_right_cancel₀ hp.ne' hq
  have : qa = qb + 1 := by exact_mod_cast hq'
  omega

/-- Rounding to nearest is monotone: below a value whose rounding is finite, every value
rounds to a finite value that is not larger. -/
theorem roundNE_mono (m1 m2 : Nat) (e1 e2 : Int) (h1 : m1 ≠ 0) (h2 : m2 ≠ 0)
    (hle : (m1 : ℚ) * 2 ^ e1 ≤ (m2 : ℚ) * 2 ^ e2) (M2 : Nat) (E2 : Int)
    (hfin : roundNE false m2 e2 = finite false M2 E2) :
    ∃ (M1 : Nat) (E1 : Int), roundNE false m1 e1 = finite false M1 E1 ∧
      (M1 : ℚ) * 2 ^ E1 ≤ (M2 : ℚ) * 2 ^ E2 := by
  obtain ⟨qa, haerr, hatie, hqa53, hqa52, hainf, hafin⟩ := roundNE_general m1 e1 h1
  obtain ⟨qb, hberr, hbtie, hqb53, hqb52, hbinf, hbfin⟩ := roundNE_general m2 e2 h2
  obtain ⟨hba1, hba2⟩ := binade m1 e1 h1
  obtain ⟨hbb1, hbb2⟩ := binade m2 e2 h2
  -- the binades are ordered
  have ht : e1 + (bitLength m1 : Int) - 53 ≤ e2 + (bitLength m2 : Int) - 53 := by
    have h3 : (2 : ℚ) ^ (e1 + (bitLength m1 : Int) - 53) * 2 ^ 52
        < 2 ^ (e2 + (bitLength m2 : Int) - 53) * 2 ^ 53 := by linarith
    have h4 : (2 : ℚ) ^ (e1 + (bitLength m1 : Int) - 53 + (52 : Nat))
        < 2 ^ (e2 + (bitLength m2 : Int) - 53 + (53 : Nat)) := by
      rw [zpow_split, zpow_split]
      exact h3
    have := (zpow_lt_zpow_iff_right₀ (by norm_num : (1 : ℚ) < 2)).mp h4
    push_cast at this
    omega
  have hEab : max (e1 + (bitLength m1 : Int) - 53) (-1074)
      ≤ max (e2 + (bitLength m2 : Int) - 53) (-1074) := max_le_max ht (le_refl _)
  have hmaxb : max (e2 + (bitLength m2 : Int) - 53) (-1074) ≠ -1074 →
      -1074 ≤ e2 + (bitLength m2 : Int) - 53 := by
    intro h
    by_contra hlt
    exact h (max_eq_right (by omega))
  have hmaxa : (-1074 : Int) ≤ max (e1 + (bitLength m1 : Int) - 53) (-1074) := le_max_right _ _
  generalize max (e1 + (bitLength m1 : Int) - 53) (-1074) = Ea at *
  generalize max (e2 + (bitLength m2 : Int) - 53) (-1074) = Eb at *
  have hpa : (0 : ℚ) < 2 ^ Ea := zpow_pos (by norm_num) _
  have hpb : (0 : ℚ) < 2 ^ Eb := zpow_pos (by norm_num) _
  -- the larger value does not overflow
  have hbno : ¬ (971 < Eb ∨ (Eb = 971 ∧ qb = 2 ^ 53)) := by
    intro hov
    rw [hbinf hov] at hfin
    cases hfin
  obtain ⟨Mb, Eb', hbr, hbv⟩ := hbfin hbno
  rw [hbr] at hfin
  injection hfin with _ hM hE
  subst hM hE
  rw [hbv]
  by_cases hEq : Ea = Eb
  · subst hEq
    have hq : qa ≤ qb :=
      nearest_even_mono qa qb (2 ^ Ea) _ _ hpa hle haerr hatie hberr hbtie
    have hano : ¬ (971 < Ea ∨ (Ea = 971 ∧ qa = 2 ^ 53)) := by
      rintro (h | ⟨h, hq53⟩)
      · exact hbno (Or.inl h)
      · exact hbno (Or.inr ⟨h, by omega⟩)
    obtain ⟨Ma, Ea', har, hav⟩ := hafin hano
    refine ⟨Ma, Ea', har, ?_⟩
    rw [hav]
    have hqq : (qa : ℚ) ≤ qb := by exact_mod_cast hq
    exact mul_le_mul_of_nonneg_right hqq hpa.le
  · have hlt : Ea < Eb := lt_of_le_of_ne hEab hEq
    have hano : ¬ (971 < Ea ∨ (Ea = 971 ∧ qa = 2 ^ 53)) := by
      have : Eb ≤ 971 := by
        by_contra h
        exact hbno (Or.inl (by omega))
      omega
    obtain ⟨Ma, Ea', har, hav⟩ := hafin hano
    refine ⟨Ma, Ea', har, ?_⟩
    rw [hav]
    have hqb : 2 ^ 52 ≤ qb := hqb52 (hmaxb (by omega))
    have hqbq : ((2 : ℚ) ^ 52) ≤ qb := by exact_mod_cast hqb
    have hqaq : (qa : ℚ) ≤ 2 ^ 53 := by exact_mod_cast hqa53
    have hpp : (2 : ℚ) ^ Ea * 2 ≤ 2 ^ Eb := by
      have h5 : (2 : ℚ) ^ (Ea + 1) ≤ 2 ^ Eb := zpow_le_zpow_right₀ (by norm_num) (by omega)
      rw [zpow_add_one₀ (by norm_num : (2 : ℚ) ≠ 0)] at h5
      exact h5
    calc (qa : ℚ) * 2 ^ Ea ≤ 2 ^ 53 * 2 ^ Ea := mul_le_mul_of_nonneg_right hqaq hpa.le
      _ = 2 ^ 52 * (2 ^ Ea * 2) := by ring
      _ ≤ 2 ^ 52 * 2 ^ Eb := mul_le_mul_of_nonneg_left hpp (by positivity)
      _ ≤ (qb : ℚ) * 2 ^ Eb := mul_le_mul_of_nonneg_right hqbq hpb.le

/-! ## Order of finite values -/

theorem scaled_cast (neg : Bool) (m : Nat) (e e0 : Int) (h : e0 ≤ e) :
    ((scaled neg m e e0 : Int) : ℚ) = toRat (finite neg m e) * (2 ^ e0)⁻¹ := by
  obtain ⟨n, hn⟩ : ∃ n : Nat, e = e0 + (n : Int) := ⟨(e - e0).toNat, by omega⟩
  have hn' : (e - e0).toNat = n := by omega
  have hp : (0 : ℚ) < 2 ^ e0 := zpow_pos (by norm_num) _
  subst hn
  simp only [scaled, toRat, hn', zpow_split]
  cases neg <;> (push_cast; field_simp; ring)

theorem le_finite_iff (s t : Bool) (m n : Nat) (e f : Int) :
    le (finite s m e) (finite t n f) ↔ toRat (finite s m e) ≤ toRat (finite t n f) := by
  have hp : (0 : ℚ) < (2 ^ (min e f))⁻¹ := inv_pos.mpr (zpow_pos (by norm_num) _)
  show scaled s m e (min e f) ≤ scaled t n f (min e f) ↔ _
  rw [← Int.cast_le (R := ℚ), scaled_cast s m e _ (min_le_left e f),
    scaled_cast t n f _ (min_le_right e f)]
  exact mul_le_mul_right hp

theorem toUInt64_some_lt (M : Nat) (E : Int) (n : Nat)
    (h : toUInt64 (finite false M E) = some n) : n = ⌊(M : ℚ) * 2 ^ E⌋₊ ∧ n < 2 ^ 64 := by
  rw [toUInt64_eq_floor] at h
  split_ifs at h with hlt
  injection h with h
  subst h
  exact ⟨rfl, hlt⟩

/-- The cast of `1.0e9 * s` is monotone in `s` on the non-negative values. -/
theorem toUInt64_mul_mono (a b : Double) (ha : le zero a) (hab : le a b) (nb : Nat)
    (hb : (mul c1e9 b).toUInt64 = some nb) :
    ∃ na, (mul c1e9 a).toUInt64 = some na ∧ na ≤ nb := by
  rw [c1e9_eq] at hb ⊢
  rw [zero_le_iff] at ha
  cases b with
  | nan => rcases ha with rfl | ⟨m, e, rfl | rfl⟩ <;> simp [le] at hab
  | inf t => simp [mul, toUInt64] at hb
  | finite t n f =>
    rcases ha with rfl | ⟨m, e, rfl | rfl⟩
    · simp [le] at hab
    · by_cases hm : m = 0
      · subst hm
        refine ⟨0, ?_, Nat.zero_le _⟩
        simp only [mul, Nat.mul_zero, roundNE_zero]
        exact toUInt64_zero_significand _ _
      · rw [le_finite_iff] at hab
        have hmq : (0 : ℚ) < m := by
          have : 0 < m := Nat.pos_of_ne_zero hm
          exact_mod_cast this
        have hva : (0 : ℚ) < toRat (finite false m e) := by
          simp only [toRat, Bool.false_eq_true, if_false, one_mul]
          exact mul_pos hmq (zpow_pos (by norm_num) _)
        have hvb : (0 : ℚ) < toRat (finite t n f) := lt_of_lt_of_le hva hab
        have hf : (0 : ℚ) < 2 ^ f := zpow_pos (by norm_num) _
        have hn0 : (0 : ℚ) ≤ n := Nat.cast_nonneg n
        have ht : t = false := by
          cases t
          · rfl
          · exfalso
            simp only [toRat, if_true] at hvb
            nlinarith [mul_nonneg hn0 hf.le]
        subst ht
        have hn : n ≠ 0 := by
          rintro rfl
          simp [toRat] at hvb
        simp only [toRat, Bool.false_eq_true, if_false, one_mul] at hab
        simp only [mul, Bool.xor_false] at hb ⊢
        have hTm : 8388608000000000 * m ≠ 0 := by
          have : 0 < m := Nat.pos_of_ne_zero hm
          omega
        have hTn : 8388608000000000 * n ≠ 0 := by
          have : 0 < n := Nat.pos_of_ne_zero hn
          omega
        have hle : ((8388608000000000 * m : Nat) : ℚ) * 2 ^ (-23 + e)
            ≤ ((8388608000000000 * n : Nat) : ℚ) * 2 ^ (-23 + f) := by
          rw [zpow_add₀ (by norm_num : (2 : ℚ) ≠ 0), zpow_add₀ (by norm_num : (2 : ℚ) ≠ 0)]
          push_cast
          have h23 : (0 : ℚ) < 8388608000000000 * 2 ^ (-23 : Int) := by positivity
          have := mul_le_mul_of_nonneg_left hab h23.le
          linarith
        -- the larger product is finite
        obtain ⟨M2, E2, hr2⟩ : ∃ M2 E2,
            roundNE false (8388608000000000 * n) (-23 + f) = finite false M2 E2 := by
          cases hres : roundNE false (8388608000000000 * n) (-23 + f) with
          | nan => rw [hres] at hb; simp [toUInt64] at hb
          | inf s => rw [hres] at hb; simp [toUInt64] at hb
          | finite s M E =>
            obtain ⟨hs, _⟩ := roundNE_finite_sign _ _ _ _ _ _ hres
            subst hs
            exact ⟨M, E, rfl⟩
        obtain ⟨M1, E1, hr1, hval⟩ := roundNE_mono _ _ _ _ hTm hTn hle M2 E2 hr2
        rw [hr2] at hb
        rw [hr1]
        obtain ⟨hnb, hnb64⟩ := toUInt64_some_lt M2 E2 nb hb
        have hfl : ⌊(M1 : ℚ) * 2 ^ E1⌋₊ ≤ nb := by
          rw [hnb]
          exact Nat.floor_mono hval
        refine ⟨⌊(M1 : ℚ) * 2 ^ E1⌋₊, ?_, hfl⟩
        rw [toUInt64_eq_floor, if_pos (by omega)]
    · refine ⟨0, ?_, Nat.zero_le _⟩
      simp only [mul, Nat.mul_zero, roundNE_zero]
      exact toUInt64_zero_significand _ _

/-! ## The seconds value of a nanosecond count -/

/-- Below `2^52` nanoseconds, `ns * 1.0e-9` times `10^9` stays below `ns + 3/4`, and lies
less than half a quantum below `ns` for every quantum `p` of a binade reaching it. -/
theorem mul_ofUInt64_c1em9_bounds (ns : Nat) (h : ns < 2 ^ 52) :
    ∃ (M : Nat) (E : Int), mul (ofUInt64 ns) c1em9 = finite false M E ∧
      10 ^ 9 * ((M : ℚ) * 2 ^ E) < (ns : ℚ) + 3 / 4 ∧
      ∀ p : ℚ, 10 ^ 9 * ((M : ℚ) * 2 ^ E) < 2 ^ 53 * p →
        (ns : ℚ) - 10 ^ 9 * ((M : ℚ) * 2 ^ E) < p / 2 := by
  by_cases h0 : ns = 0
  · subst h0
    refine ⟨0, -1074, ?_, by norm_num, fun p hp => ?_⟩
    · rw [ofUInt64, roundNE_zero, c1em9]
      simp only [mul, Nat.zero_mul, roundNE_zero, Bool.xor_false]
    · simp only [Nat.cast_zero, zero_mul, mul_zero, sub_zero] at hp ⊢
      linarith
  · obtain ⟨M0, E0, hx, hM0, hM0', hE0, hE0', hxv⟩ := ofUInt64_normal ns h0 (by omega)
    obtain ⟨Y, Ey, qy, Eyb, hy, hY, hY', hEy, hEy', hyv, hyerr, hyb1, hyb2⟩ :=
      mul_normal M0 4835703278458517 E0 (-82) hM0 hM0' (by norm_num) (by norm_num)
        (by omega) (by omega)
    refine ⟨Y, Ey, by rw [hx, c1em9, hy], ?_⟩
    have hn1 : (1 : ℚ) ≤ ns := by
      have : 1 ≤ ns := Nat.one_le_iff_ne_zero.mpr h0
      exact_mod_cast this
    have hn2 : (ns : ℚ) ≤ 2 ^ 52 - 1 := by
      have : ns + 1 ≤ 2 ^ 52 := h
      have : ((ns + 1 : Nat) : ℚ) ≤ ((2 ^ 52 : Nat) : ℚ) := by exact_mod_cast this
      push_cast at this
      linarith
    have hc : ((4835703278458517 : Nat) : ℚ) * 2 ^ (-82 : Int)
        = 4835703278458517 / 4835703278458516698824704 := by
      rw [zpow_neg]
      norm_num
    rw [hxv, hc] at hyerr hyb1 hyb2
    rw [hyv]
    have hpy : (0 : ℚ) < 2 ^ Eyb := zpow_pos (by norm_num) _
    obtain ⟨hy1, hy2⟩ := abs_le.mp hyerr
    have hpy30 : (2 : ℚ) ^ Eyb ≤ 2 ^ (-29 - 1 : Int) := by
      apply zpow_le_of_lt
      have : (2 : ℚ) ^ (-29 : Int) = 1 / 536870912 := by rw [zpow_neg]; norm_num
      rw [this]
      linarith
    have h30 : (2 : ℚ) ^ (-29 - 1 : Int) = 1 / 1073741824 := by
      rw [show (-29 - 1 : Int) = -30 by norm_num, zpow_neg]
      norm_num
    rw [h30] at hpy30
    refine ⟨by linarith, fun p hp => ?_⟩
    linarith

/-- The seconds round trip below `2^52` nanoseconds: the value stored by
`setTimeNSec(getTimeNSec())` is within one nanosecond of the duration `s`. -/
theorem seconds_roundtrip_bounds (s : Double) (ns : Nat) (hs : le zero s)
    (hns : (mul c1e9 s).toUInt64 = some ns) (hlt : ns < 2 ^ 52) :
    ∃ (M : Nat) (E : Int), mul (ofUInt64 ns) c1em9 = finite false M E ∧
      toRat s - 1 / 10 ^ 9 < (M : ℚ) * 2 ^ E ∧ (M : ℚ) * 2 ^ E < toRat s + 1 / 10 ^ 9 := by
  obtain ⟨M, E, hy, hup, hlow⟩ := mul_ofUInt64_c1em9_bounds ns hlt
  refine ⟨M, E, hy, ?_⟩
  have hy0 : (0 : ℚ) ≤ (M : ℚ) * 2 ^ E := by positivity
  rw [c1e9_eq] at hns
  rw [zero_le_iff] at hs
  -- a zero duration
  have hzero : ∀ (neg : Bool) (e : Int), s = finite neg 0 e →
      toRat s - 1 / 10 ^ 9 < (M : ℚ) * 2 ^ E ∧ (M : ℚ) * 2 ^ E < toRat s + 1 / 10 ^ 9 := by
    intro neg e hse
    subst hse
    simp only [mul, Nat.mul_zero, roundNE_zero, toUInt64_zero_significand] at hns
    injection hns with hns
    subst hns
    have hts : toRat (finite neg 0 e) = 0 := by simp [toRat]
    rw [hts]
    simp only [Nat.cast_zero, zero_add] at hup
    constructor <;> linarith
  rcases hs with rfl | ⟨m, e, rfl | rfl⟩
  · simp [mul, toUInt64] at hns
  · by_cases hm : m = 0
    · subst hm
      exact hzero false e rfl
    · have hTm : 8388608000000000 * m ≠ 0 := by
        have : 0 < m := Nat.pos_of_ne_zero hm
        omega
      simp only [mul, Bool.xor_false] at hns
      obtain ⟨qw, hwerr, _, hqw53, hqw52, hwinf, hwfin⟩ :=
        roundNE_general (8388608000000000 * m) (-23 + e) hTm
      obtain ⟨_, hbin⟩ := binade (8388608000000000 * m) (-23 + e) hTm
      have hmax1 : -23 + e + (bitLength (8388608000000000 * m) : Int) - 53
          ≤ max (-23 + e + (bitLength (8388608000000000 * m) : Int) - 53) (-1074) :=
        le_max_left _ _
      have hmax3 : ¬ (-1074 ≤ -23 + e + (bitLength (8388608000000000 * m) : Int) - 53) →
          max (-23 + e + (bitLength (8388608000000000 * m) : Int) - 53) (-1074) = -1074 :=
        fun h => max_eq_right (by omega)
      generalize max (-23 + e + (bitLength (8388608000000000 * m) : Int) - 53) (-1074) = Ew
        at hwerr hwinf hwfin hmax1 hmax3
      have hpw : (0 : ℚ) < 2 ^ Ew := zpow_pos (by norm_num) _
      have hbin' : ((8388608000000000 * m : Nat) : ℚ) * 2 ^ (-23 + e) < 2 ^ 53 * 2 ^ Ew := by
        refine lt_of_lt_of_le hbin ?_
        exact mul_le_mul_of_nonneg_left (zpow_le_zpow_right₀ (by norm_num) hmax1) (by positivity)
      -- the exact product and the rounded one
      have hv : ((8388608000000000 * m : Nat) : ℚ) * 2 ^ (-23 + e)
          = 10 ^ 9 * ((m : ℚ) * 2 ^ e) := by
        rw [zpow_add₀ (by norm_num : (2 : ℚ) ≠ 0), zpow_neg]
        push_cast
        norm_num
        ring
      rw [hv] at hwerr hbin'
      have hwno : ¬ (971 < Ew ∨ (Ew = 971 ∧ qw = 2 ^ 53)) := by
        intro hov
        rw [hwinf hov] at hns
        simp [toUInt64] at hns
      obtain ⟨Mw, Ew', hwr, hwv⟩ := hwfin hwno
      rw [hwr] at hns
      obtain ⟨hfl, _⟩ := toUInt64_some_lt Mw Ew' ns hns
      rw [hwv] at hfl
      have hw0 : (0 : ℚ) ≤ (qw : ℚ) * 2 ^ Ew := by positivity
      have hw1 : (ns : ℚ) ≤ (qw : ℚ) * 2 ^ Ew := by
        rw [hfl]
        exact Nat.floor_le hw0
      have hw2 : (qw : ℚ) * 2 ^ Ew < (ns : ℚ) + 1 := by
        rw [hfl]
        exact Nat.lt_floor_add_one _
      have hn2 : (ns : ℚ) + 1 ≤ 2 ^ 52 := by
        have : ns + 1 ≤ 2 ^ 52 := hlt
        have : ((ns + 1 : Nat) : ℚ) ≤ ((2 ^ 52 : Nat) : ℚ) := by exact_mod_cast this
        push_cast at this
        linarith
      -- the quantum of the product is at most `1/2`
      have hp1 : (2 : ℚ) ^ Ew ≤ 2 ^ (0 - 1 : Int) := by
        by_cases hnorm : -1074 ≤ -23 + e + (bitLength (8388608000000000 * m) : Int) - 53
        · apply zpow_le_of_lt
          rw [zpow_zero]
          have hq : ((2 : ℚ) ^ 52) ≤ qw := by exact_mod_cast hqw52 hnorm
          nlinarith
        · rw [hmax3 hnorm]
          exact zpow_le_zpow_right₀ (by norm_num) (by norm_num)
      have hEw : Ew ≤ 0 := by
        have := (zpow_le_zpow_iff_right₀ (by norm_num : (1 : ℚ) < 2)).mp hp1
        omega
      have h12 : (2 : ℚ) ^ (0 - 1 : Int) = 1 / 2 := by
        rw [show (0 - 1 : Int) = -1 by norm_num, zpow_neg]
        norm_num
      rw [h12] at hp1
      obtain ⟨hwe1, hwe2⟩ := abs_le.mp hwerr
      have hts : toRat (finite false m e) = (m : ℚ) * 2 ^ e := by simp [toRat]
      rw [hts]
      constructor
      · by_contra hcon
        have hcon' : 10 ^ 9 * ((M : ℚ) * 2 ^ E) + 1 ≤ 10 ^ 9 * ((m : ℚ) * 2 ^ e) := by
          have := not_lt.mp hcon
          linarith
        have hl := hlow (2 ^ Ew) (by linarith)
        have hlat : ((ns + 1 : Nat) : ℚ) ≤ (qw : ℚ) * 2 ^ Ew := by
          apply lattice_ge qw (ns + 1) Ew hEw
          push_cast
          linarith
        push_cast at hlat
        linarith
      · linarith
  · exact hzero true e rfl

/-! ## The product `1.0e9 * s` against the exact product -/

/-- Multiples of a quantum `p`: a multiple above `n * p - p` is at least `n * p`. -/
theorem multiple_ge (q n : Nat) (p : ℚ) (hp : 0 < p) (h : (n : ℚ) * p - p < (q : ℚ) * p) :
    (n : ℚ) * p ≤ (q : ℚ) * p := by
  have h1 : (n : ℚ) - 1 < q := by
    by_contra hcon
    have := mul_le_mul_of_nonneg_right (not_lt.mp hcon) hp.le
    linarith
  have h2 : n < q + 1 := by
    have : ((n : Nat) : ℚ) < ((q + 1 : Nat) : ℚ) := by
      push_cast
      linarith
    exact_mod_cast this
  have h3 : (n : ℚ) ≤ q := by exact_mod_cast Nat.lt_succ_iff.mp h2
  exact mul_le_mul_of_nonneg_right h3 hp.le

/-- Multiples of `2^E`, `E ≤ 0`: a multiple below `n + 2^E` is at most the integer `n`. -/
theorem lattice_le (q n : Nat) (E : Int) (hE : E ≤ 0)
    (h : (q : ℚ) * 2 ^ E < (n : ℚ) + 2 ^ E) : (q : ℚ) * 2 ^ E ≤ (n : ℚ) := by
  obtain ⟨k, hk⟩ : ∃ k : Nat, E = -(k : Int) := ⟨(-E).toNat, by omega⟩
  subst hk
  have hp : (0 : ℚ) < 2 ^ k := by positivity
  rw [zpow_neg, zpow_natCast] at h ⊢
  have h1 : (q : ℚ) < (n : ℚ) * 2 ^ k + 1 := by
    have := mul_lt_mul_of_pos_right h hp
    rw [add_mul, mul_assoc, inv_mul_cancel₀ hp.ne'] at this
    simpa using this
  have h2 : q < n * 2 ^ k + 1 := by
    have : ((q : Nat) : ℚ) < ((n * 2 ^ k + 1 : Nat) : ℚ) := by
      push_cast
      linarith
    exact_mod_cast this
  have h3 : (q : ℚ) ≤ ((n * 2 ^ k : Nat) : ℚ) := by
    exact_mod_cast Nat.lt_succ_iff.mp h2
  rw [mul_inv_le_iff₀ hp]
  exact_mod_cast h3

/-- The product `1.0e9 * s` of a positive duration `s = m * 2^e` whose cast is `ns`: it
is `q * 2^Ew`, the multiple of the quantum `2^Ew` nearest to the exact product
`v = 10^9 * s`, and `ns` is its floor; either the product is normal
(`2^52 * 2^Ew ≤ v`, `2^52 ≤ q`) or the quantum is the least one. -/
theorem mul_c1e9_facts (m : Nat) (e : Int) (ns : Nat) (hm : m ≠ 0)
    (hns : (mul c1e9 (finite false m e)).toUInt64 = some ns) :
    ∃ (q : Nat) (Ew : Int),
      toRat (mul c1e9 (finite false m e)) = (q : ℚ) * 2 ^ Ew ∧
      (ns : ℚ) ≤ (q : ℚ) * 2 ^ Ew ∧ (q : ℚ) * 2 ^ Ew < (ns : ℚ) + 1 ∧ ns < 2 ^ 64 ∧
      |(q : ℚ) * 2 ^ Ew - 10 ^ 9 * ((m : ℚ) * 2 ^ e)| ≤ 2 ^ Ew / 2 ∧
      10 ^ 9 * ((m : ℚ) * 2 ^ e) < 2 ^ 53 * 2 ^ Ew ∧ q ≤ 2 ^ 53 ∧
      ((2 ^ 52 * 2 ^ Ew ≤ 10 ^ 9 * ((m : ℚ) * 2 ^ e) ∧ 2 ^ 52 ≤ q) ∨ Ew = -1074) := by
  rw [c1e9_eq] at hns ⊢
  have hTm : 8388608000000000 * m ≠ 0 := by
    have : 0 < m := Nat.pos_of_ne_zero hm
    omega
  simp only [mul, Bool.xor_false] at hns ⊢
  obtain ⟨qw, hwerr, _, hqw53, hqw52, hwinf, hwfin⟩ :=
    roundNE_general (8388608000000000 * m) (-23 + e) hTm
  obtain ⟨hbin1, hbin⟩ := binade (8388608000000000 * m) (-23 + e) hTm
  have hmax1 : -23 + e + (bitLength (8388608000000000 * m) : Int) - 53
      ≤ max (-23 + e + (bitLength (8388608000000000 * m) : Int) - 53) (-1074) :=
    le_max_left _ _
  have hmax2 : -1074 ≤ -23 + e + (bitLength (8388608000000000 * m) : Int) - 53 →
      max (-23 + e + (bitLength (8388608000000000 * m) : Int) - 53) (-1074)
        = -23 + e + (bitLength (8388608000000000 * m) : Int) - 53 :=
    fun h => max_eq_left h
  have hmax3 : ¬ (-1074 ≤ -23 + e + (bitLength (8388608000000000 * m) : Int) - 53) →
      max (-23 + e + (bitLength (8388608000000000 * m) : Int) - 53) (-1074) = -1074 :=
    fun h => max_eq_right (by omega)
  generalize max (-23 + e + (bitLength (8388608000000000 * m) : Int) - 53) (-1074) = Ew
    at hwerr hwinf hwfin hmax1 hmax2 hmax3
  have hpw : (0 : ℚ) < 2 ^ Ew := zpow_pos (by norm_num) _
  have hbin' : ((8388608000000000 * m : Nat) : ℚ) * 2 ^ (-23 + e) < 2 ^ 53 * 2 ^ Ew := by
    refine lt_of_lt_of_le hbin ?_
    exact mul_le_mul_of_nonneg_left (zpow_le_zpow_right₀ (by norm_num) hmax1) (by positivity)
  have hv : ((8388608000000000 * m : Nat) : ℚ) * 2 ^ (-23 + e)
      = 10 ^ 9 * ((m : ℚ) * 2 ^ e) := by
    rw [zpow_add₀ (by norm_num : (2 : ℚ) ≠ 0), zpow_neg]
    push_cast
    norm_num
    ring
  rw [hv] at hwerr hbin' hbin1
  have hwno : ¬ (971 < Ew ∨ (Ew = 971 ∧ qw = 2 ^ 53)) := by
    intro hov
    rw [hwinf hov] at hns
    simp [toUInt64] at hns
  obtain ⟨Mw, Ew', hwr, hwv⟩ := hwfin hwno
  rw [hwr] at hns ⊢
  obtain ⟨hfl, hlt64⟩ := toUInt64_some_lt Mw Ew' ns hns
  rw [hwv] at hfl
  have hw0 : (0 : ℚ) ≤ (qw : ℚ) * 2 ^ Ew := by positivity
  refine ⟨qw, Ew, ?_, ?_, ?_, hlt64, hwerr, hbin', hqw53, ?_⟩
  · simp only [toRat, Bool.false_eq_true, if_false, one_mul]
    exact hwv
  · rw [hfl]
    exact Nat.floor_le hw0
  · rw [hfl]
    exact Nat.lt_floor_add_one _
  · by_cases hnorm : -1074 ≤ -23 + e + (bitLength (8388608000000000 * m) : Int) - 53
    · left
      rw [← hmax2 hnorm] at hbin1
      exact ⟨hbin1, hqw52 hnorm⟩
    · right
      exact hmax3 hnorm

/-- The cast `static_cast<uint64_t>(1.0e9 * s)` against the exact product `s * 10^9`, for
a non-negative `s`: the cast is the floor of the binary64 product `P`, which is
`s * 10^9` rounded to nearest; the result is at most `s * 10^9 * (1 + 2^-53)`, and
below `2^53` it is `⌊s * 10^9⌋` or `⌊s * 10^9⌋ + 1`, the latter only when `P` is that
integer. -/
theorem cast_mul_c1e9_bounds (s : Double) (ns : Nat) (hs : le zero s)
    (hns : (mul c1e9 s).toUInt64 = some ns) :
    ns = ⌊toRat (mul c1e9 s)⌋₊ ∧ (ns : ℚ) ≤ toRat (mul c1e9 s) ∧
    (ns : ℚ) ≤ toRat s * 10 ^ 9 * (1 + 1 / 2 ^ 53) ∧
    toRat s * 10 ^ 9 * (1 - 1 / 2 ^ 53) - 1 < (ns : ℚ) ∧
    (ns < 2 ^ 53 → ⌊toRat s * 10 ^ 9⌋₊ ≤ ns ∧ ns ≤ ⌊toRat s * 10 ^ 9⌋₊ + 1 ∧
      (ns = ⌊toRat s * 10 ^ 9⌋₊ + 1 → toRat (mul c1e9 s) = (ns : ℚ))) := by
  rw [zero_le_iff] at hs
  -- a zero duration
  have hzero : ∀ (neg : Bool) (e : Int), s = finite neg 0 e →
      ns = ⌊toRat (mul c1e9 s)⌋₊ ∧ (ns : ℚ) ≤ toRat (mul c1e9 s) ∧
      (ns : ℚ) ≤ toRat s * 10 ^ 9 * (1 + 1 / 2 ^ 53) ∧
      toRat s * 10 ^ 9 * (1 - 1 / 2 ^ 53) - 1 < (ns : ℚ) ∧
      (ns < 2 ^ 53 → ⌊toRat s * 10 ^ 9⌋₊ ≤ ns ∧ ns ≤ ⌊toRat s * 10 ^ 9⌋₊ + 1 ∧
        (ns = ⌊toRat s * 10 ^ 9⌋₊ + 1 → toRat (mul c1e9 s) = (ns : ℚ))) := by
    intro neg e hse
    subst hse
    rw [c1e9_eq] at hns ⊢
    simp only [mul, Nat.mul_zero, roundNE_zero, toUInt64_zero_significand] at hns ⊢
    injection hns with hns
    subst hns
    have h1 : ∀ (b : Bool) (f : Int), toRat (finite b 0 f) = 0 := by
      intro b f
      simp [toRat]
    rw [h1, h1]
    simp
  rcases hs with rfl | ⟨m, e, rfl | rfl⟩
  · rw [c1e9_eq] at hns
    simp [mul, toUInt64] at hns
  · by_cases hm : m = 0
    · subst hm
      exact hzero false e rfl
    · obtain ⟨q, Ew, hP, hn1, hn2, _, herr, hbin, hq53, hnorm⟩ := mul_c1e9_facts m e ns hm hns
      have hts : toRat (finite false m e) = (m : ℚ) * 2 ^ e := by simp [toRat]
      rw [hP, hts]
      have hv : (m : ℚ) * 2 ^ e * 10 ^ 9 = 10 ^ 9 * ((m : ℚ) * 2 ^ e) := by ring
      rw [hv]
      have hv0 : (0 : ℚ) ≤ 10 ^ 9 * ((m : ℚ) * 2 ^ e) := by positivity
      generalize 10 ^ 9 * ((m : ℚ) * 2 ^ e) = v at herr hbin hnorm hv0 ⊢
      have hpw : (0 : ℚ) < 2 ^ Ew := zpow_pos (by norm_num) _
      have hP0 : (0 : ℚ) ≤ (q : ℚ) * 2 ^ Ew := by positivity
      have hq53' : (q : ℚ) ≤ 2 ^ 53 := by exact_mod_cast hq53
      have hn0 : (0 : ℚ) ≤ ns := Nat.cast_nonneg ns
      obtain ⟨he1, he2⟩ := abs_le.mp herr
      -- bounds by one rounding error
      have hsmall : Ew = -1074 → (2 : ℚ) ^ Ew ≤ 1 / 2 ^ 54 := by
        intro h
        rw [h]
        have := zpow_le_zpow_right₀ (by norm_num : (1 : ℚ) ≤ 2) (by norm_num : (-1074 : Int) ≤ -54)
        refine le_trans this ?_
        rw [zpow_neg]
        norm_num
      have hup : (ns : ℚ) ≤ v * (1 + 1 / 2 ^ 53) := by
        rcases hnorm with ⟨h, _⟩ | h
        · nlinarith
        · have hs := hsmall h
          have hns0 : ns = 0 := by
            have : (ns : ℚ) < 1 := by nlinarith
            have : ns < 1 := by exact_mod_cast this
            omega
          subst hns0
          simp only [Nat.cast_zero]
          positivity
      have hlow : v * (1 - 1 / 2 ^ 53) - 1 < (ns : ℚ) := by
        rcases hnorm with ⟨h, _⟩ | h
        · nlinarith
        · have hs := hsmall h
          nlinarith
      refine ⟨?_, hn1, hup, hlow, fun h53 => ?_⟩
      · exact ((Nat.floor_eq_iff hP0).mpr ⟨hn1, hn2⟩).symm
      · -- integers are multiples of the quantum
        have hEw : Ew ≤ 0 := by
          rcases hnorm with ⟨_, hq52⟩ | h
          · have hq52' : ((2 : ℚ) ^ 52) ≤ q := by exact_mod_cast hq52
            have h53' : (ns : ℚ) + 1 ≤ 2 ^ 53 := by
              have : ns + 1 ≤ 2 ^ 53 := h53
              have : ((ns + 1 : Nat) : ℚ) ≤ ((2 ^ 53 : Nat) : ℚ) := by exact_mod_cast this
              push_cast at this
              linarith
            have hlt : (2 : ℚ) ^ Ew < 2 ^ (1 : Int) := by
              rw [zpow_one]
              nlinarith
            have := (zpow_lt_zpow_iff_right₀ (by norm_num : (1 : ℚ) < 2)).mp hlt
            omega
          · omega
        have hK1 : ((⌊v⌋₊ : Nat) : ℚ) ≤ v := Nat.floor_le hv0
        have hK2 : v < ((⌊v⌋₊ : Nat) : ℚ) + 1 := Nat.lt_floor_add_one v
        have hge : ((⌊v⌋₊ : Nat) : ℚ) ≤ (q : ℚ) * 2 ^ Ew :=
          lattice_ge q ⌊v⌋₊ Ew hEw (by linarith)
        have hle : (q : ℚ) * 2 ^ Ew ≤ ((⌊v⌋₊ + 1 : Nat) : ℚ) := by
          apply lattice_le q (⌊v⌋₊ + 1) Ew hEw
          push_cast
          linarith
        push_cast at hle
        have h1 : ⌊v⌋₊ ≤ ns := by
          have : ((⌊v⌋₊ : Nat) : ℚ) < ((ns + 1 : Nat) : ℚ) := by
            push_cast
            linarith
          have : ⌊v⌋₊ < ns + 1 := by exact_mod_cast this
          omega
        have h2 : ns ≤ ⌊v⌋₊ + 1 := by
          have : ((ns : Nat) : ℚ) ≤ ((⌊v⌋₊ + 1 : Nat) : ℚ) := by
            push_cast
            linarith
          exact_mod_cast this
        refine ⟨h1, h2, fun heq => ?_⟩
        have hc : (ns : ℚ) = ((⌊v⌋₊ + 1 : Nat) : ℚ) := congrArg Nat.cast heq
        push_cast at hc
        linarith
  · exact hzero true e rfl

/-! ## The seconds round trip, every range -/

/-- The conversion of a `uint64_t` that is a binary64 value is exact. -/
theorem ofUInt64_exact (q k : Nat) (hq : q ≤ 2 ^ 53) (h0 : q * 2 ^ k ≠ 0)
    (hlt : q * 2 ^ k < 2 ^ 64) :
    ∃ (M : Nat) (E : Int), ofUInt64 (q * 2 ^ k) = finite false M E ∧ 2 ^ 52 ≤ M ∧
      M < 2 ^ 53 ∧ -52 ≤ E ∧ E ≤ 12 ∧ (M : ℚ) * 2 ^ E = ((q * 2 ^ k : Nat) : ℚ) := by
  obtain ⟨h1, h2⟩ := bitLength_spec (q * 2 ^ k) h0
  have hb0 : bitLength (q * 2 ^ k) ≠ 0 := by
    intro hz
    rw [hz] at h2
    omega
  have hb : bitLength (q * 2 ^ k) - 1 < 64 :=
    (Nat.pow_lt_pow_iff_right (by norm_num)).mp (lt_of_le_of_lt h1 hlt)
  obtain ⟨M, E, q', hr, hM1, hM2, hE1, hE2, hval, herr, hex⟩ :=
    roundNE_spec (q * 2 ^ k) 0 h0 (by omega) (by omega)
  refine ⟨M, E, hr, hM1, hM2, by omega, by omega, ?_⟩
  by_cases hb53 : bitLength (q * 2 ^ k) ≤ 53
  · rw [hex hb53]
    simp
  · -- the value is a multiple of the quantum `2^(b - 53)`
    obtain ⟨t, ht⟩ : ∃ t : Nat, bitLength (q * 2 ^ k) = 53 + (t + 1) :=
      ⟨bitLength (q * 2 ^ k) - 54, by omega⟩
    have hj : ∃ j : Nat, q * 2 ^ k = j * 2 ^ (t + 1) := by
      by_cases hq53 : q = 2 ^ 53
      · subst hq53
        have hpow : 2 ^ 53 * 2 ^ k = 2 ^ (53 + k) := by rw [pow_add]
        rw [hpow] at ht h1 h2 ⊢
        have hk1 : 53 + k < 53 + (t + 1) := by
          rw [ht] at h2
          exact (Nat.pow_lt_pow_iff_right (by norm_num)).mp h2
        have hk2 : 53 + (t + 1) - 1 ≤ 53 + k := by
          rw [ht] at h1
          exact (Nat.pow_le_pow_iff_right (by norm_num)).mp h1
        have hkt : k = t := by omega
        subst hkt
        exact ⟨2 ^ 52, by rw [← pow_add]; congr 1; omega⟩
      · have hq' : q < 2 ^ 53 := lt_of_le_of_ne hq hq53
        have hlt2 : q * 2 ^ k < 2 ^ (53 + k) := by
          rw [pow_add]
          exact Nat.mul_lt_mul_of_pos_right hq' (Nat.pos_pow_of_pos _ (by norm_num))
        have hk : 53 + (t + 1) - 1 < 53 + k := by
          rw [ht] at h1
          exact (Nat.pow_lt_pow_iff_right (by norm_num)).mp (lt_of_le_of_lt h1 hlt2)
        refine ⟨q * 2 ^ (k - (t + 1)), ?_⟩
        rw [mul_assoc, ← pow_add]
        congr 2
        omega
    obtain ⟨j, hj⟩ := hj
    have hEb : (0 : Int) + (bitLength (q * 2 ^ k) : Int) - 53 = ((t + 1 : Nat) : Int) := by
      rw [ht]
      push_cast
      ring
    rw [hEb, zpow_natCast] at hval herr
    rw [hval]
    simp only [zpow_zero, mul_one] at herr
    have hp : (0 : ℚ) < 2 ^ (t + 1) := by positivity
    have hjq : ((q * 2 ^ k : Nat) : ℚ) = (j : ℚ) * 2 ^ (t + 1) := by
      rw [hj]
      push_cast
      ring
    rw [hjq] at herr ⊢
    obtain ⟨he1, he2⟩ := abs_le.mp herr
    have hq1 : (q' : ℚ) < (j : ℚ) + 1 := by
      by_contra hcon
      have := mul_le_mul_of_nonneg_right (not_lt.mp hcon) hp.le
      linarith
    have hq2 : (j : ℚ) < (q' : ℚ) + 1 := by
      by_contra hcon
      have := mul_le_mul_of_nonneg_right (not_lt.mp hcon) hp.le
      linarith
    have hq1' : q' < j + 1 := by exact_mod_cast hq1
    have hq2' : j < q' + 1 := by exact_mod_cast hq2
    have : q' = j := by omega
    rw [this]

/-- The nanosecond count read from a positive duration is a binary64 value: its
conversion back to binary64 is exact. -/
theorem ofUInt64_of_cast (m : Nat) (e : Int) (ns : Nat) (hm : m ≠ 0)
    (hns : (mul c1e9 (finite false m e)).toUInt64 = some ns) (h0 : ns ≠ 0) :
    ∃ (M : Nat) (E : Int), ofUInt64 ns = finite false M E ∧ 2 ^ 52 ≤ M ∧ M < 2 ^ 53 ∧
      -52 ≤ E ∧ E ≤ 12 ∧ (M : ℚ) * 2 ^ E = (ns : ℚ) := by
  by_cases h53 : ns < 2 ^ 53
  · obtain ⟨M, E, h1, h2, h3, h4, h5, h6⟩ := ofUInt64_normal ns h0 h53
    exact ⟨M, E, h1, h2, h3, h4, by omega, h6⟩
  · obtain ⟨q, Ew, _, hn1, hn2, hlt64, _, _, hq53, _⟩ := mul_c1e9_facts m e ns hm hns
    have hpw : (0 : ℚ) < 2 ^ Ew := zpow_pos (by norm_num) _
    have hq53' : (q : ℚ) ≤ 2 ^ 53 := by exact_mod_cast hq53
    have hns53 : ((2 : ℚ) ^ 53) ≤ ns := by
      have : 2 ^ 53 ≤ ns := not_lt.mp h53
      exact_mod_cast this
    have hEw : 0 ≤ Ew := by
      have h1 : (2 : ℚ) ^ (0 : Int) ≤ 2 ^ Ew := by
        rw [zpow_zero]
        by_contra hcon
        have := mul_le_mul_of_nonneg_right hq53' hpw.le
        nlinarith [not_le.mp hcon]
      exact (zpow_le_zpow_iff_right₀ (by norm_num : (1 : ℚ) < 2)).mp h1
    obtain ⟨k, hk⟩ := Int.eq_ofNat_of_zero_le hEw
    subst hk
    rw [zpow_natCast] at hn1 hn2
    have hP : (q : ℚ) * 2 ^ k = ((q * 2 ^ k : Nat) : ℚ) := by push_cast; ring
    rw [hP] at hn1 hn2
    have h1 : ns ≤ q * 2 ^ k := by exact_mod_cast hn1
    have h2 : q * 2 ^ k < ns + 1 := by exact_mod_cast hn2
    have heq : ns = q * 2 ^ k := by omega
    rw [heq]
    exact ofUInt64_exact q k hq53 (by omega) (by omega)

/-- A non-zero nanosecond count is read from a positive finite duration. -/
theorem pos_of_cast_ne_zero (s : Double) (ns : Nat) (hs : le zero s)
    (hns : (mul c1e9 s).toUInt64 = some ns) (h0 : ns ≠ 0) :
    ∃ m e, s = finite false m e ∧ m ≠ 0 := by
  rw [zero_le_iff] at hs
  rw [c1e9_eq] at hns
  rcases hs with rfl | ⟨m, e, rfl | rfl⟩
  · simp [mul, toUInt64] at hns
  · refine ⟨m, e, rfl, ?_⟩
    rintro rfl
    simp only [mul, Nat.mul_zero, roundNE_zero, toUInt64_zero_significand] at hns
    injection hns with hns
    exact h0 hns.symm
  · simp only [mul, Nat.mul_zero, roundNE_zero, toUInt64_zero_significand] at hns
    injection hns with hns
    exact absurd hns.symm h0

/-- The seconds round trip never gains more than three rounding errors: the value stored
by `setTimeNSec(getTimeNSec())` is at most `s * (1 + 2^-53)^3`. -/
theorem seconds_roundtrip_upper (s : Double) (ns : Nat) (hs : le zero s)
    (hns : (mul c1e9 s).toUInt64 = some ns) :
    ∃ (M : Nat) (E : Int), mul (ofUInt64 ns) c1em9 = finite false M E ∧
      (M : ℚ) * 2 ^ E ≤ toRat s * (1 + 1 / 2 ^ 53) ^ 3 := by
  have hs' := hs
  rw [zero_le_iff] at hs
  have hs0 : (0 : ℚ) ≤ toRat s := by
    rcases hs with rfl | ⟨m, e, rfl | rfl⟩
    · simp [toRat]
    · simp only [toRat, Bool.false_eq_true, if_false, one_mul]
      positivity
    · simp [toRat]
  by_cases h0 : ns = 0
  · subst h0
    refine ⟨0, -1074, ?_, ?_⟩
    · rw [ofUInt64, roundNE_zero, c1em9]
      simp only [mul, Nat.zero_mul, roundNE_zero, Bool.xor_false]
    · simp only [Nat.cast_zero, zero_mul]
      positivity
  · -- a positive count comes from a positive duration
    obtain ⟨m, e, rfl, hm⟩ := pos_of_cast_ne_zero s ns hs' hns h0
    obtain ⟨q, Ew, _, hn1, hn2, _, herr, hbin, hq53, hnorm⟩ := mul_c1e9_facts m e ns hm hns
    obtain ⟨M0, E0, hx, hM0, hM0', hE0, hE0', hxv⟩ := ofUInt64_of_cast m e ns hm hns h0
    obtain ⟨Y, Ey, qy, Eyb, hy, _, _, _, _, hyv, hyerr, hyb1, _⟩ :=
      mul_normal M0 4835703278458517 E0 (-82) hM0 hM0' (by norm_num) (by norm_num)
        (by omega) (by omega)
    refine ⟨Y, Ey, by rw [hx, c1em9, hy], ?_⟩
    have hc : ((4835703278458517 : Nat) : ℚ) * 2 ^ (-82 : Int)
        = 4835703278458517 / 4835703278458516698824704 := by
      rw [zpow_neg]
      norm_num
    rw [hxv, hc] at hyerr hyb1
    rw [hyv]
    have hts : toRat (finite false m e) = (m : ℚ) * 2 ^ e := by simp [toRat]
    rw [hts] at hs0 ⊢
    generalize (m : ℚ) * 2 ^ e = t at herr hbin hnorm hs0 ⊢
    have hpw : (0 : ℚ) < 2 ^ Ew := zpow_pos (by norm_num) _
    have hpy : (0 : ℚ) < 2 ^ Eyb := zpow_pos (by norm_num) _
    have hq53' : (q : ℚ) ≤ 2 ^ 53 := by exact_mod_cast hq53
    have hn1' : (1 : ℚ) ≤ ns := by
      have : 1 ≤ ns := Nat.one_le_iff_ne_zero.mpr h0
      exact_mod_cast this
    obtain ⟨he1, he2⟩ := abs_le.mp herr
    obtain ⟨hy1, hy2⟩ := abs_le.mp hyerr
    -- the product is normal
    have hnorm' : (2 : ℚ) ^ 52 * 2 ^ Ew ≤ 10 ^ 9 * t := by
      rcases hnorm with ⟨h, _⟩ | h
      · exact h
      · exfalso
        have hsm : (2 : ℚ) ^ Ew ≤ 1 / 2 ^ 54 := by
          rw [h]
          have := zpow_le_zpow_right₀ (by norm_num : (1 : ℚ) ≤ 2)
            (by norm_num : (-1074 : Int) ≤ -54)
          refine le_trans this ?_
          rw [zpow_neg]
          norm_num
        nlinarith
    have hcube : (1 + 1 / 2 ^ 53 : ℚ) ^ 3
        = 1 + 3 / 2 ^ 53 + 3 / 2 ^ 106 + 1 / 2 ^ 159 := by ring
    rw [hcube]
    nlinarith

/-- From `2^52` nanoseconds on, the seconds round trip does not lose anything: for a
binary64 duration `s = m * 2^e` (`m < 2^53`) the value stored by
`setTimeNSec(getTimeNSec())` is at least `s`. -/
theorem seconds_roundtrip_ge (m : Nat) (e : Int) (ns : Nat) (hm : m ≠ 0) (hm53 : m < 2 ^ 53)
    (hns : (mul c1e9 (finite false m e)).toUInt64 = some ns) (h52 : 2 ^ 52 ≤ ns) :
    ∃ (M : Nat) (E : Int), mul (ofUInt64 ns) c1em9 = finite false M E ∧
      (m : ℚ) * 2 ^ e ≤ (M : ℚ) * 2 ^ E := by
  have h0 : ns ≠ 0 := by
    have : 0 < 2 ^ 52 := by norm_num
    omega
  obtain ⟨q, Ew, _, hn1, hn2, _, herr, hbin, hq53, hnorm⟩ := mul_c1e9_facts m e ns hm hns
  obtain ⟨M0, E0, hx, hM0, hM0', hE0, hE0', hxv⟩ := ofUInt64_of_cast m e ns hm hns h0
  obtain ⟨Y, Ey, qy, Eyb, hy, _, _, _, _, hyv, hyerr, hyb1, hyb2⟩ :=
    mul_normal M0 4835703278458517 E0 (-82) hM0 hM0' (by norm_num) (by norm_num)
      (by omega) (by omega)
  refine ⟨Y, Ey, by rw [hx, c1em9, hy], ?_⟩
  have hc : ((4835703278458517 : Nat) : ℚ) * 2 ^ (-82 : Int)
      = 4835703278458517 / 4835703278458516698824704 := by
    rw [zpow_neg]
    norm_num
  rw [hxv, hc] at hyerr hyb1 hyb2
  rw [hyv]
  have hpw : (0 : ℚ) < 2 ^ Ew := zpow_pos (by norm_num) _
  have hpy : (0 : ℚ) < 2 ^ Eyb := zpow_pos (by norm_num) _
  have hg : (0 : ℚ) < 2 ^ e := zpow_pos (by norm_num) _
  have hq53' : (q : ℚ) ≤ 2 ^ 53 := by exact_mod_cast hq53
  have hns52 : ((2 : ℚ) ^ 52) ≤ ns := by exact_mod_cast h52
  have hmq : (1 : ℚ) ≤ m := by
    have : 1 ≤ m := Nat.one_le_iff_ne_zero.mpr hm
    exact_mod_cast this
  have hm53' : (m : ℚ) + 1 ≤ 2 ^ 53 := by
    have : m + 1 ≤ 2 ^ 53 := hm53
    have : ((m + 1 : Nat) : ℚ) ≤ ((2 ^ 53 : Nat) : ℚ) := by exact_mod_cast this
    push_cast at this
    linarith
  obtain ⟨he1, he2⟩ := abs_le.mp herr
  obtain ⟨hy1, hy2⟩ := abs_le.mp hyerr
  -- the product is normal
  have hnorm' : (2 : ℚ) ^ 52 * 2 ^ Ew ≤ 10 ^ 9 * ((m : ℚ) * 2 ^ e) := by
    rcases hnorm with ⟨h, _⟩ | h
    · exact h
    · exfalso
      have hsm : (2 : ℚ) ^ Ew ≤ 1 / 2 ^ 54 := by
        rw [h]
        have := zpow_le_zpow_right₀ (by norm_num : (1 : ℚ) ≤ 2)
          (by norm_num : (-1074 : Int) ≤ -54)
        refine le_trans this ?_
        rw [zpow_neg]
        norm_num
      nlinarith
  -- the count is the product itself: nothing is truncated
  have hP : (q : ℚ) * 2 ^ Ew = (ns : ℚ) := by
    by_cases hEw : 0 ≤ Ew
    · obtain ⟨k, hk⟩ := Int.eq_ofNat_of_zero_le hEw
      subst hk
      rw [zpow_natCast] at hn1 hn2 ⊢
      have hPn : (q : ℚ) * 2 ^ k = ((q * 2 ^ k : Nat) : ℚ) := by push_cast; ring
      rw [hPn] at hn1 hn2 ⊢
      have h1 : ns ≤ q * 2 ^ k := by exact_mod_cast hn1
      have h2 : q * 2 ^ k < ns + 1 := by exact_mod_cast hn2
      have : q * 2 ^ k = ns := by omega
      rw [this]
    · have hp2 : (2 : ℚ) ^ Ew ≤ 2 ^ (-1 : Int) :=
        zpow_le_zpow_right₀ (by norm_num) (by omega)
      rw [zpow_neg, zpow_one] at hp2
      have := mul_le_mul_of_nonneg_right hq53' hpw.le
      apply le_antisymm
      · have h2 : (2 : ℚ) ^ 53 * 2 ^ Ew ≤ 2 ^ 52 := by
          have := mul_le_mul_of_nonneg_left hp2 (by positivity : (0 : ℚ) ≤ 2 ^ 53)
          norm_num at this ⊢
          linarith
        linarith
      · exact hn1
  rw [hP] at he1 he2
  generalize (2 : ℚ) ^ Ew = p at hpw hnorm' hbin he1 he2
  by_cases hcmp : Eyb ≤ e
  · -- the duration is a multiple of the quantum of `ns * 1.0e-9`
    obtain ⟨k, hk⟩ : ∃ k : Nat, e = Eyb + (k : Int) := ⟨(e - Eyb).toNat, by omega⟩
    have hs : (m : ℚ) * 2 ^ e = ((m * 2 ^ k : Nat) : ℚ) * 2 ^ Eyb := by
      rw [hk, zpow_split]
      push_cast
      ring
    rw [hs] at hnorm' hbin he1 he2 ⊢
    apply multiple_ge qy (m * 2 ^ k) (2 ^ Eyb) hpy
    generalize ((m * 2 ^ k : Nat) : ℚ) * 2 ^ Eyb = t at hnorm' hbin he1 he2 ⊢
    generalize (2 : ℚ) ^ Eyb = py at hpy hy1 hy2 hyb1 hyb2 ⊢
    linarith
  · -- the stored value is in a higher binade than the duration
    have hpy2 : (2 : ℚ) ^ e * 2 ≤ 2 ^ Eyb := by
      have h5 : (2 : ℚ) ^ (e + 1) ≤ 2 ^ Eyb := zpow_le_zpow_right₀ (by norm_num) (by omega)
      rw [zpow_add_one₀ (by norm_num : (2 : ℚ) ≠ 0)] at h5
      exact h5
    have hge : ((2 ^ 52 : Nat) : ℚ) * 2 ^ Eyb ≤ (qy : ℚ) * 2 ^ Eyb := by
      apply multiple_ge qy (2 ^ 52) (2 ^ Eyb) hpy
      push_cast
      linarith
    push_cast at hge
    have hmg : (m : ℚ) * 2 ^ e ≤ 2 ^ 53 * 2 ^ e :=
      mul_le_mul_of_nonneg_right (by linarith) hg.le
    linarith

/-- The seconds round trip of a non-negative binary64 duration `s` whose nanosecond count
is defined: the value `s'` stored by `setTimeNSec(getTimeNSec())` satisfies
`s - 1e-9 < s' ≤ s * (1 + 2^-53)^3`. -/
theorem seconds_roundtrip_loss (s : Double) (ns : Nat) (hs : le zero s) (hc : Canonical s)
    (hns : (mul c1e9 s).toUInt64 = some ns) :
    ∃ (M : Nat) (E : Int), mul (ofUInt64 ns) c1em9 = finite false M E ∧
      toRat s - 1 / 10 ^ 9 < (M : ℚ) * 2 ^ E ∧
      (M : ℚ) * 2 ^ E ≤ toRat s * (1 + 1 / 2 ^ 53) ^ 3 := by
  obtain ⟨M, E, hy, hup⟩ := seconds_roundtrip_upper s ns hs hns
  refine ⟨M, E, hy, ?_, hup⟩
  by_cases h52 : ns < 2 ^ 52
  · obtain ⟨M', E', hy', hlo, _⟩ := seconds_roundtrip_bounds s ns hs hns h52
    rw [hy] at hy'
    injection hy' with _ hM hE
    rw [hM, hE]
    exact hlo
  · have h0 : ns ≠ 0 := by
      have : 0 < 2 ^ 52 := by norm_num
      omega
    obtain ⟨m, e, rfl, hm⟩ := pos_of_cast_ne_zero s ns hs hns h0
    obtain ⟨M', E', hy', hge⟩ :=
      seconds_roundtrip_ge m e ns hm hc.1 hns (not_lt.mp h52)
    rw [hy] at hy'
    injection hy' with _ hM hE
    rw [hM, hE]
    have hts : toRat (finite false m e) = (m : ℚ) * 2 ^ e := by simp [toRat]
    rw [hts]
    have : (0 : ℚ) < 1 / 10 ^ 9 := by norm_num
    linarith

end Double

/-! ## The literals -/

theorem toRat_c1e9 : Double.toRat Double.c1e9 = 10 ^ 9 := by
  rw [Double.c1e9_eq, Double.toRat, zpow_neg]
  norm_num

/-- The literal `1.0e-9` is the binary64 value nearest to `10^-9`: it is a normal value
of exponent `-82` and differs from `10^-9` by less than half a unit `2^-82`. -/
theorem c1em9_nearest :
    Double.Canonical Double.c1em9 ∧ |Double.toRat Double.c1em9 - 1 / 10 ^ 9| < 2 ^ (-82 : Int) / 2 := by
  refine ⟨by decide, ?_⟩
  rw [Double.c1em9, Double.toRat, zpow_neg, abs_lt]
  norm_num

/-- The value `d19` is the binary64 value nearest to `1.9e-9`. -/
theorem d19_nearest :
    Double.Canonical d19 ∧ |Double.toRat d19 - 19 / 10 ^ 10| < 2 ^ (-81 : Int) / 2 := by
  refine ⟨by decide, ?_⟩
  rw [d19, Double.toRat, zpow_neg, abs_lt]
  norm_num

/-- The value `d3` is the binary64 value nearest to `3e-9`, and lies below it. -/
theorem d3_nearest :
    Double.Canonical d3 ∧ |Double.toRat d3 - 3 / 10 ^ 9| < 2 ^ (-81 : Int) / 2 ∧
      Double.toRat d3 < 3 / 10 ^ 9 := by
  refine ⟨by decide, ?_, ?_⟩
  · rw [d3, Double.toRat, zpow_neg, abs_lt]
    norm_num
  · rw [d3, Double.toRat, zpow_neg]
    norm_num

theorem toRat_dFar : Double.Canonical dFar ∧ Double.toRat dFar = 2 ^ 23 + 3 / 2 ^ 29 := by
  refine ⟨by decide, ?_⟩
  rw [dFar, Double.toRat, zpow_neg]
  norm_num

theorem toRat_negOne : Double.toRat negOne = -1 := by
  rw [negOne, Double.toRat, zpow_neg]
  norm_num

theorem toRat_five : Double.toRat five = 5 := by
  rw [five, Double.toRat, zpow_neg]
  norm_num

theorem toRat_seven : Double.toRat seven = 7 := by
  rw [seven, Double.toRat, zpow_neg]
  norm_num

theorem toRat_nine : Double.toRat nine = 9 := by
  rw [nine, Double.toRat, zpow_neg]
  norm_num

theorem negOne_lt_zero : Double.lt negOne Double.zero := by
  rw [Double.lt_zero_iff]
  exact Or.inr ⟨_, _, by decide, rfl⟩

theorem five_nonneg : Double.le Double.zero five := by
  rw [Double.zero_le_iff]
  exact Or.inr ⟨_, _, Or.inl rfl⟩

/-! ## Construction and the seconds accessors -/

namespace Segment

theorem new_ok (N D : Int) (hD : 0 ≤ D) :
    Segment.new N D = .ok { polynomials_ := List.replicate D.toNat (Polynomial.ofN N),
                            time_ := Double.zero, D_ := D, N_ := N } := by
  unfold Segment.new
  rw [if_neg (by omega)]

theorem new_WF (N D : Int) (s : Segment) (h : Segment.new N D = .ok s) : s.WF := by
  unfold Segment.new at h
  split_ifs at h with hD
  injection h with h
  subst h
  exact ⟨by simpa using hD, by simp⟩

/-- C1: for all `N ≥ 0` and `D ≥ 0`, constructing `Segment(N, D)` succeeds and the
segment has `D() = D`, `N() = N`, exactly `D` polynomials in its polynomial sequence,
each configured for exactly `N` coefficients. -/
theorem new_spec (N D : Int) (hN : 0 ≤ N) (hD : 0 ≤ D) :
    ∃ s, Segment.new N D = .ok s ∧ s.D = D ∧ s.N = N ∧
      (s.getPolynomialsRef.length : Int) = D ∧
      ∀ p ∈ s.getPolynomialsRef, p.N = N ∧ (p.coefficients_.length : Int) = N := by
  refine ⟨_, new_ok N D hD, rfl, rfl, ?_, ?_⟩
  · simp [getPolynomialsRef, Int.toNat_of_nonneg hD]
  · intro p hp
    simp only [getPolynomialsRef] at hp
    rw [List.eq_of_mem_replicate hp]
    simp [Polynomial.N, Polynomial.ofN, Int.toNat_of_nonneg hN]

theorem new_spec_witness :
    (0 : Int) ≤ 6 ∧ (0 : Int) ≤ 3 ∧
    ∃ s, Segment.new 6 3 = .ok s ∧ s.D = 3 ∧ s.N = 6 ∧
      (s.getPolynomialsRef.length : Int) = 3 ∧
      ∀ p ∈ s.getPolynomialsRef, p.N = 6 ∧ (p.coefficients_.length : Int) = 6 :=
  ⟨by decide, by decide, new_spec 6 3 (by decide) (by decide)⟩

/-- C3: for every segment state and every `s` (in particular every non-negative one),
after `setTime(s)` the call `getTime()` returns exactly `s`: the stored value is the
argument itself, no conversion is applied. -/
theorem getTime_setTime (seg : Segment) (s : Double) : (seg.setTime s).getTime = s := rfl

/-- C5, as stated, fails: `setTime(-1.0)` on `Segment(6, 3)` does not fail; it replaces
the stored duration `0` by `-1.0`, which is negative. -/
theorem setTime_negative_stored :
    Segment.new 6 3 = .ok segment63 ∧ Double.lt negOne Double.zero ∧
      (segment63.setTime negOne).getTime = negOne ∧
      (segment63.setTime negOne).getTime ≠ segment63.getTime := by
  exact ⟨rfl, negOne_lt_zero, rfl, by decide⟩

/-- C5, amended: `setTime` validates nothing: for every `s < 0` and every segment,
`setTime(s)` stores `s`, and `getTime()` then returns that negative value. -/
theorem setTime_negative_accepted (seg : Segment) (s : Double) (hs : Double.lt s Double.zero) :
    (seg.setTime s).getTime = s ∧ Double.lt (seg.setTime s).getTime Double.zero :=
  ⟨rfl, hs⟩

theorem setTime_negative_accepted_witness :
    Double.lt negOne Double.zero ∧ (segment63.setTime negOne).getTime = negOne ∧
      Double.lt (segment63.setTime negOne).getTime Double.zero :=
  ⟨negOne_lt_zero, setTime_negative_accepted segment63 negOne negOne_lt_zero⟩

theorem reachable_setTime_negOne : Reachable (segment63.setTime negOne) :=
  Reachable.setTime _ _ (Reachable.new 6 3 _ rfl)

/-- C6, as stated, fails: the state reached from `Segment(6, 3)` by `setTime(-1.0)` has
`getTime() < 0`, so `getTime() >= 0` does not hold in it. -/
theorem reachable_negative_duration :
    Reachable (segment63.setTime negOne) ∧
      ¬ Double.le Double.zero (segment63.setTime negOne).getTime := by
  refine ⟨reachable_setTime_negOne, ?_⟩
  rw [Double.zero_le_iff]
  simp [getTime, setTime, negOne]

/-- C6, amended: in every state reachable from construction by `setTimeNSec` calls and
by `setTime` calls whose argument `s` satisfies `s >= 0`, the stored duration satisfies
`getTime() >= 0`. -/
theorem getTime_nonneg_of_reachableNonneg (s : Segment) (h : ReachableNonneg s) :
    Double.le Double.zero s.getTime := by
  induction h with
  | new N D s hs =>
    unfold Segment.new at hs
    split_ifs at hs
    injection hs with hs
    subst hs
    rw [Double.zero_le_iff]
    exact Or.inr ⟨0, -1074, Or.inl rfl⟩
  | setTime s t ht _ _ => exact ht
  | setTimeNSec s ns _ _ _ =>
    show Double.le Double.zero (Double.mul (Double.ofUInt64 ns) Double.c1em9)
    exact Double.mul_ofUInt64_c1em9_nonneg ns

theorem reachableNonneg_five_seven :
    ReachableNonneg ((segment63.setTime five).setTimeNSec 7) :=
  ReachableNonneg.setTimeNSec (segment63.setTime five) 7 (by norm_num)
    (ReachableNonneg.setTime segment63 five five_nonneg (ReachableNonneg.new 6 3 segment63 rfl))

set_option maxRecDepth 100000 in
theorem getTime_nonneg_of_reachableNonneg_witness :
    ReachableNonneg ((segment63.setTime five).setTimeNSec 7) ∧
      Double.le Double.zero ((segment63.setTime five).setTimeNSec 7).getTime :=
  And.intro reachableNonneg_five_seven
    (getTime_nonneg_of_reachableNonneg _ reachableNonneg_five_seven)

/-! ## Indexed access and joint evaluation -/

theorem get_of_lt (s : Segment) (hwf : s.WF) (i : Nat) (hi : (i : Int) < s.D) :
    ∃ p, s.getPolynomialsRef[i]? = some p ∧ s.get i = .ok p := by
  have hlen : i < s.polynomials_.length := by
    have h1 := hwf.1
    have h2 := hwf.2
    unfold D at hi
    omega
  refine ⟨s.polynomials_[i], by simp [getPolynomialsRef, hlen], ?_⟩
  unfold get
  rw [if_pos (by unfold D at hi; exact hi), List.getElem?_eq_getElem hlen]

/-- C7: for every segment with `D` dimensions, `segment[i]` fails with an out-of-range
error for every index `i >= D` (including `i = D`), returning no polynomial, and for
every `0 <= i < D` it returns the `i`-th polynomial of the sequence. -/
theorem get_spec (s : Segment) (hwf : s.WF) (i : Nat) :
    (s.D ≤ (i : Int) → s.get i = .error .outOfRange) ∧
    ((i : Int) < s.D → ∃ p, s.getPolynomialsRef[i]? = some p ∧ s.get i = .ok p) := by
  refine ⟨fun h => ?_, get_of_lt s hwf i⟩
  unfold get
  rw [if_neg (by unfold D at h; omega)]

theorem segment579_WF : segment579.WF := ⟨by decide, rfl⟩

theorem get_spec_witness :
    segment579.WF ∧
    (segment579.D ≤ ((3 : Nat) : Int) → segment579.get 3 = .error .outOfRange) ∧
    ((((3 : Nat) : Int)) < segment579.D →
      ∃ p, segment579.getPolynomialsRef[3]? = some p ∧ segment579.get 3 = .ok p) :=
  ⟨segment579_WF, get_spec segment579 segment579_WF 3⟩

theorem mapM_get_eq (polyEval : Polynomial → Double → Nat → Double) (t : Double) (k : Nat)
    (s : Segment) (l : List Polynomial) :
    ∀ (pre : List Polynomial), s.polynomials_ = pre ++ l → s.WF →
      ((List.range' pre.length l.length).mapM fun i =>
        (s.get i).map fun p => polyEval p t k) = .ok (l.map fun p => polyEval p t k) := by
  induction l with
  | nil => intro pre _ _; rfl
  | cons a l ih =>
    intro pre hpre hwf
    have hlen : pre.length < s.polynomials_.length := by simp [hpre]
    have hget : s.get pre.length = .ok a := by
      unfold get
      have h1 := hwf.1
      have h2 := hwf.2
      rw [if_pos (by omega), List.getElem?_eq_getElem hlen]
      have ha : s.polynomials_[pre.length] = a := by
        simp only [hpre]
        exact List.getElem_append_right (Nat.le_refl _) |>.trans (by simp)
      rw [ha]
    have ih2 := ih (pre ++ [a]) (by simp [hpre]) hwf
    simp only [List.length_append, List.length_singleton] at ih2
    simp only [List.length_cons, List.range'_succ, List.mapM_cons, hget, List.map_cons]
    rw [ih2]
    rfl

theorem evaluate_eq_map (polyEval : Polynomial → Double → Nat → Double) (s : Segment)
    (hwf : s.WF) (t : Double) (k : Int) (hk : 0 ≤ k) :
    s.evaluate polyEval t k = .ok (s.polynomials_.map fun p => polyEval p t k.toNat) := by
  unfold evaluate
  rw [if_neg (by omega), List.range_eq_range', ← hwf.2]
  have h := mapM_get_eq polyEval t k.toNat s s.polynomials_ [] rfl hwf
  simpa using h

/-- C4: for every segment with `D` dimensions, every time `t` and every derivative
order `k >= 0`, `evaluate(t, k)` returns a vector of length exactly `D` (empty when
`D = 0`) whose `i`-th entry, for every `0 <= i < D`, is the `i`-th polynomial's
`evaluate(t, k)`; in particular a 3-dimension segment whose polynomials evaluate at
order `0` to the constants `5`, `7`, `9` evaluates to `[5, 7, 9]`, in that order. -/
theorem evaluate_spec (polyEval : Polynomial → Double → Nat → Double) (s : Segment)
    (hwf : s.WF) (t : Double) (k : Int) (hk : 0 ≤ k) :
    ∃ v, s.evaluate polyEval t k = .ok v ∧ (v.length : Int) = s.D ∧ (s.D = 0 → v = []) ∧
      (∀ i : Nat, (i : Int) < s.D →
        ∃ p, s.get i = .ok p ∧ v[i]? = some (polyEval p t k.toNat)) ∧
      (∀ p0 p1 p2, k = 0 → s.getPolynomialsRef = [p0, p1, p2] →
        polyEval p0 t 0 = five → polyEval p1 t 0 = seven → polyEval p2 t 0 = nine →
        v = [five, seven, nine]) := by
  have hlen : ((s.polynomials_.map fun p => polyEval p t k.toNat).length : Int) = s.D := by
    have h1 := hwf.1
    have h2 := hwf.2
    unfold D
    rw [List.length_map]
    omega
  refine ⟨_, evaluate_eq_map polyEval s hwf t k hk, hlen, ?_, ?_, ?_⟩
  · intro h0
    rw [h0] at hlen
    exact List.length_eq_zero.mp (by exact_mod_cast hlen)
  · intro i hi
    obtain ⟨p, hp, hget⟩ := get_of_lt s hwf i hi
    refine ⟨p, hget, ?_⟩
    simp only [getPolynomialsRef] at hp
    simp [List.getElem?_map, hp]
  · intro p0 p1 p2 hk0 hps h0 h1 h2
    subst hk0
    simp only [getPolynomialsRef] at hps
    simp [hps, h0, h1, h2]

theorem evaluate_spec_witness :
    segment579.WF ∧ (0 : Int) ≤ 0 ∧
    ∃ v, segment579.evaluate constEval nine 0 = .ok v ∧ (v.length : Int) = segment579.D ∧
      (segment579.D = 0 → v = []) ∧
      (∀ i : Nat, (i : Int) < segment579.D →
        ∃ p, segment579.get i = .ok p ∧ v[i]? = some (constEval p nine (0 : Int).toNat)) ∧
      (∀ p0 p1 p2, (0 : Int) = 0 → segment579.getPolynomialsRef = [p0, p1, p2] →
        constEval p0 nine 0 = five → constEval p1 nine 0 = seven →
        constEval p2 nine 0 = nine → v = [five, seven, nine]) :=
  ⟨segment579_WF, le_refl 0, evaluate_spec constEval segment579 segment579_WF nine 0 (le_refl 0)⟩

/-- C8: for every segment, every `t` and every derivative order `k < 0` (such as
`k = -1`), `evaluate(t, k)` fails with an error and produces no value; the order is not
clamped to zero. -/
theorem evaluate_negative_order (polyEval : Polynomial → Double → Nat → Double)
    (s : Segment) (t : Double) (k : Int) (hk : k < 0) :
    s.evaluate polyEval t k = .error .invalidDerivativeOrder ∧
      ∀ v, s.evaluate polyEval t k ≠ .ok v := by
  have h : s.evaluate polyEval t k = .error .invalidDerivativeOrder := by
    unfold evaluate
    rw [if_pos hk]
  exact ⟨h, fun v hv => by rw [h] at hv; cases hv⟩

theorem evaluate_negative_order_witness :
    (-1 : Int) < 0 ∧
    segment579.evaluate constEval nine (-1) = .error .invalidDerivativeOrder ∧
      ∀ v, segment579.evaluate constEval nine (-1) ≠ .ok v :=
  ⟨by decide, evaluate_negative_order constEval segment579 nine (-1) (by decide)⟩

theorem evaluate_segment579 (t : Double) :
    segment579.evaluate constEval t 0 = .ok [five, seven, nine] := by
  rw [evaluate_eq_map constEval segment579 segment579_WF t 0 (le_refl 0)]
  rfl

/-! ## The nanosecond accessors -/

theorem getTimeNSec_setTimeNSec_eq (seg : Segment) (ns : Nat) :
    (seg.setTimeNSec ns).getTimeNSec
      = (Double.mul Double.c1e9 (Double.mul (Double.ofUInt64 ns) Double.c1em9)).toUInt64 := rfl

/-- C2, as stated, fails: for `ns = 2^52 + 7 = 4503599627370503`, a `uint64_t`,
`setTimeNSec(ns)` followed by `getTimeNSec()` returns `ns + 1`, not `ns`. -/
theorem getTimeNSec_setTimeNSec_inexact :
    (4503599627370503 : Nat) < 2 ^ 64 ∧
    (segment63.setTimeNSec 4503599627370503).getTimeNSec = some 4503599627370504 ∧
    (segment63.setTimeNSec 4503599627370503).getTimeNSec ≠ some 4503599627370503 := by
  rw [getTimeNSec_setTimeNSec_eq, Double.roundtrip_fails]
  exact ⟨by norm_num, rfl, by decide⟩

/-- C2, amended: for every `ns < 2^52 + 7 = 4503599627370503` (durations up to about 52
days) and every segment, `setTimeNSec(ns)` followed by `getTimeNSec()` returns exactly
`ns`. -/
theorem getTimeNSec_setTimeNSec (seg : Segment) (ns : Nat) (h : ns < 4503599627370503) :
    (seg.setTimeNSec ns).getTimeNSec = some ns := by
  rw [getTimeNSec_setTimeNSec_eq]
  exact Double.roundtrip ns h

theorem getTimeNSec_setTimeNSec_witness :
    (1500000000 : Nat) < 4503599627370503 ∧
    (segment63.setTimeNSec 1500000000).getTimeNSec = some 1500000000 :=
  ⟨by norm_num, getTimeNSec_setTimeNSec segment63 1500000000 (by norm_num)⟩

/-- C10: for every `uint64_t` value `ns` and every segment state, after `setTimeNSec(ns)`
the call `getTime()` returns `ns * 1e-9` seconds: the binary64 product of `ns` (converted
to binary64) and the literal `1.0e-9`, a non-negative finite value within relative
`2^-51` of the exact quotient `ns / 10^9`. -/
theorem getTime_setTimeNSec (seg : Segment) (ns : Nat) (h : ns < 2 ^ 64) :
    (seg.setTimeNSec ns).getTime = Double.mul (Double.ofUInt64 ns) Double.c1em9 ∧
    ∃ (M : Nat) (E : Int), (seg.setTimeNSec ns).getTime = Double.finite false M E ∧
      |(M : ℚ) * 2 ^ E - (ns : ℚ) / 10 ^ 9| ≤ (ns : ℚ) / 10 ^ 9 / 2 ^ 51 :=
  ⟨rfl, Double.mul_ofUInt64_c1em9_spec ns h⟩

theorem getTime_setTimeNSec_witness :
    (1500000000 : Nat) < 2 ^ 64 ∧
    (segment63.setTimeNSec 1500000000).getTime
      = Double.mul (Double.ofUInt64 1500000000) Double.c1em9 ∧
    ∃ (M : Nat) (E : Int),
      (segment63.setTimeNSec 1500000000).getTime = Double.finite false M E ∧
      |(M : ℚ) * 2 ^ E - ((1500000000 : Nat) : ℚ) / 10 ^ 9|
        ≤ ((1500000000 : Nat) : ℚ) / 10 ^ 9 / 2 ^ 51 :=
  ⟨by norm_num, getTime_setTimeNSec segment63 1500000000 (by norm_num)⟩

theorem toRat_nonneg_finite (M : Nat) (E : Int) :
    Double.toRat (Double.finite false M E) = (M : ℚ) * 2 ^ E := by
  simp [Double.toRat]

theorem getTimeNSec_floor_of_nonneg (seg : Segment) (neg : Bool) (M : Nat) (E : Int)
    (hs : Double.le Double.zero seg.getTime)
    (hfin : Double.mul Double.c1e9 seg.getTime = Double.finite neg M E)
    (hfit : Double.toRat (Double.finite neg M E) < 2 ^ 64) :
    seg.getTimeNSec = some ⌊Double.toRat (Double.mul Double.c1e9 seg.getTime)⌋₊ ∧
    ((⌊Double.toRat (Double.mul Double.c1e9 seg.getTime)⌋₊ : ℚ)
        ≤ Double.toRat (Double.mul Double.c1e9 seg.getTime)) := by
  have hsign : neg = false ∨ M = 0 := by
    rw [Double.zero_le_iff] at hs
    rw [Double.c1e9_eq] at hfin
    rcases hs with h | ⟨m, e, h | h⟩ <;> rw [h] at hfin <;> simp only [Double.mul] at hfin
    · simp at hfin
    · exact Or.inl (Double.roundNE_finite_sign _ _ _ _ _ _ hfin).1
    · exact Or.inr ((Double.roundNE_finite_sign _ _ _ _ _ _ hfin).2 (by simp))
  simp only [getTimeNSec, getTime] at hfin ⊢
  rw [hfin]
  rcases hsign with rfl | rfl
  · rw [toRat_nonneg_finite] at hfit ⊢
    have hnn : (0 : ℚ) ≤ (M : ℚ) * 2 ^ E := by positivity
    have hfl : ⌊(M : ℚ) * 2 ^ E⌋₊ < 2 ^ 64 := by
      have h1 : ((⌊(M : ℚ) * 2 ^ E⌋₊ : Nat) : ℚ) < ((2 ^ 64 : Nat) : ℚ) := by
        push_cast
        exact lt_of_le_of_lt (Nat.floor_le hnn) hfit
      exact_mod_cast h1
    rw [Double.toUInt64_eq_floor, if_pos hfl]
    exact ⟨rfl, Nat.floor_le hnn⟩
  · rw [Double.toUInt64_zero_significand]
    simp [Double.toRat]

theorem d19_nonneg : Double.le Double.zero d19 := by
  rw [Double.zero_le_iff]
  exact Or.inr ⟨_, _, Or.inl rfl⟩

set_option maxRecDepth 100000 in
theorem c1e9_mul_d19 :
    Double.mul Double.c1e9 d19 = Double.finite false 8556839292003943 (-52) := by decide

theorem toUInt64_c1e9_mul_d19 :
    (Double.finite false 8556839292003943 (-52)).toUInt64 = some 1 := by decide

theorem getTimeNSec_of_d19 (seg : Segment) (h : seg.getTime = d19) :
    seg.getTimeNSec = some 1 := by
  simp only [getTimeNSec, getTime] at h ⊢
  rw [h, c1e9_mul_d19, toUInt64_c1e9_mul_d19]

set_option maxRecDepth 100000 in
theorem toUInt64_c1e9_mul_d31 : (Double.mul Double.c1e9 d31).toUInt64 = some 31 := by decide

/-- The product `1.0e9 * s` is itself rounded to nearest: for the binary64 value `s`
nearest to `3.1e-8`, whose exact value times `10^9` lies strictly between `30` and `31`,
the rounded product is `31` and `getTimeNSec()` returns `31`. -/
theorem getTimeNSec_d31 :
    (segment63.setTime d31).getTimeNSec = some 31 ∧
    (30 : ℚ) < Double.toRat d31 * 10 ^ 9 ∧ Double.toRat d31 * 10 ^ 9 < 31 := by
  refine ⟨toUInt64_c1e9_mul_d31, ?_, ?_⟩ <;>
    · rw [d31, Double.toRat, zpow_neg]
      norm_num

/-! ## The structural invariant -/

theorem setPolynomial_fields (s s' : Segment) (i : Nat) (p : Polynomial)
    (h : s.setPolynomial i p = .ok s') :
    s'.D_ = s.D_ ∧ s'.N_ = s.N_ ∧ s'.time_ = s.time_ ∧
      s'.polynomials_.length = s.polynomials_.length := by
  unfold setPolynomial at h
  split_ifs at h
  injection h with h
  subst h
  simp

/-- C11: in every state reachable from `Segment(N, D)` by any sequence of `setTime`,
`setTimeNSec` and writes to a polynomial through `segment[i]`, `D()` and `N()` still
return the constructed `D` and `N`, and the polynomial sequence still has length exactly
`D`. -/
theorem reachableFrom_structure (N D : Int) (s : Segment) (h : ReachableFrom N D s) :
    s.D = D ∧ s.N = N ∧ (s.getPolynomialsRef.length : Int) = D := by
  induction h with
  | new s hs =>
    unfold Segment.new at hs
    split_ifs at hs with hD
    injection hs with hs
    subst hs
    refine ⟨rfl, rfl, ?_⟩
    simp only [getPolynomialsRef, List.length_replicate]
    omega
  | setTime s t _ ih => exact ih
  | setTimeNSec s ns _ _ ih => exact ih
  | write s s' i p hw _ ih =>
    obtain ⟨hD, hN, _, hlen⟩ := setPolynomial_fields s s' i p hw
    obtain ⟨ih1, ih2, ih3⟩ := ih
    simp only [Segment.D, Segment.N, getPolynomialsRef] at *
    exact ⟨by rw [hD, ih1], by rw [hN, ih2], by rw [hlen, ih3]⟩

theorem setPolynomial_segment63 :
    segment63.setPolynomial 1 (polyOf [five, seven]) =
      .ok { polynomials_ := [Polynomial.ofN 6, polyOf [five, seven], Polynomial.ofN 6],
            time_ := Double.zero, D_ := 3, N_ := 6 } := by
  rfl

theorem reachableFrom_example :
    ReachableFrom 6 3
      (({ polynomials_ := [Polynomial.ofN 6, polyOf [five, seven], Polynomial.ofN 6],
          time_ := Double.zero, D_ := 3, N_ := 6 } : Segment).setTime nine) :=
  ReachableFrom.setTime _ nine
    (ReachableFrom.write segment63 _ 1 (polyOf [five, seven]) setPolynomial_segment63
      (ReachableFrom.new segment63 rfl))

theorem reachableFrom_structure_witness :
    ReachableFrom 6 3
      (({ polynomials_ := [Polynomial.ofN 6, polyOf [five, seven], Polynomial.ofN 6],
          time_ := Double.zero, D_ := 3, N_ := 6 } : Segment).setTime nine) ∧
    (({ polynomials_ := [Polynomial.ofN 6, polyOf [five, seven], Polynomial.ofN 6],
          time_ := Double.zero, D_ := 3, N_ := 6 } : Segment).setTime nine).D = 3 ∧
    (({ polynomials_ := [Polynomial.ofN 6, polyOf [five, seven], Polynomial.ofN 6],
          time_ := Double.zero, D_ := 3, N_ := 6 } : Segment).setTime nine).N = 6 ∧
    ((({ polynomials_ := [Polynomial.ofN 6, polyOf [five, seven], Polynomial.ofN 6],
          time_ := Double.zero, D_ := 3, N_ := 6 } : Segment).setTime nine).getPolynomialsRef.length
        : Int) = 3 :=
  ⟨reachableFrom_example, reachableFrom_structure 6 3 _ reachableFrom_example⟩

/-- C12: a freshly constructed segment has zero duration: for every `N >= 0` and
`D >= 0` (indeed for every `N`), `Segment(N, D).getTime()` is `0` and
`Segment(N, D).getTimeNSec()` is `0`. -/
theorem new_duration_zero (N D : Int) (hD : 0 ≤ D) :
    ∃ s, Segment.new N D = .ok s ∧ s.getTime = Double.zero ∧ s.getTimeNSec = some 0 := by
  refine ⟨_, new_ok N D hD, rfl, ?_⟩
  show (Double.mul Double.c1e9 Double.zero).toUInt64 = some 0
  rw [Double.c1e9_eq, Double.zero]
  simp only [Double.mul, Nat.mul_zero, Double.roundNE_zero]
  exact Double.toUInt64_zero_significand _ _

theorem new_duration_zero_witness :
    (0 : Int) ≤ 3 ∧
    ∃ s, Segment.new 6 3 = .ok s ∧ s.getTime = Double.zero ∧ s.getTimeNSec = some 0 :=
  ⟨by decide, new_duration_zero 6 3 (by decide)⟩

/-- C14: for every segment with `D` dimensions, `getPolynomialsRef()` has length `D`, and
for every `0 <= i < D` its `i`-th element is the polynomial that `segment[i]` returns, in
dimension-index order. -/
theorem getPolynomialsRef_get (s : Segment) (hwf : s.WF) :
    (s.getPolynomialsRef.length : Int) = s.D ∧
    ∀ i : Nat, (i : Int) < s.D →
      ∃ p, s.getPolynomialsRef[i]? = some p ∧ s.get i = .ok p := by
  refine ⟨?_, fun i hi => get_of_lt s hwf i hi⟩
  have h1 := hwf.1
  have h2 := hwf.2
  unfold getPolynomialsRef D
  omega

theorem getPolynomialsRef_get_witness :
    segment579.WF ∧
    (segment579.getPolynomialsRef.length : Int) = segment579.D ∧
    ∀ i : Nat, (i : Int) < segment579.D →
      ∃ p, segment579.getPolynomialsRef[i]? = some p ∧ segment579.get i = .ok p :=
  ⟨segment579_WF, getPolynomialsRef_get segment579 segment579_WF⟩

/-! ## The seconds round trip -/

theorem d05_nearest :
    Double.Canonical d05 ∧ |Double.toRat d05 - 5 / 10 ^ 10| < 2 ^ (-83 : Int) / 2 := by
  refine ⟨by decide, ?_⟩
  rw [d05, Double.toRat, zpow_neg, abs_lt]
  norm_num

theorem d05_nonneg : Double.le Double.zero d05 := by
  rw [Double.zero_le_iff]
  exact Or.inr ⟨_, _, Or.inl rfl⟩

set_option maxRecDepth 100000 in
theorem toUInt64_c1e9_mul_d05 : (Double.mul Double.c1e9 d05).toUInt64 = some 0 := by decide

theorem mul_ofUInt64_zero : Double.mul (Double.ofUInt64 0) Double.c1em9 = Double.zero := by
  rw [Double.ofUInt64, Double.roundNE_zero, Double.c1em9]
  simp only [Double.mul, Nat.zero_mul, Double.roundNE_zero, Bool.xor_false]
  rfl

/-- C13: the seconds round trip is lossy: there is a non-negative duration `s`, the
binary64 value nearest to `0.5e-9`, such that after `setTime(s)` and
`setTimeNSec(getTimeNSec())` the value of `getTime()` differs from `s` (it is `0`). -/
theorem seconds_roundtrip_lossy (seg : Segment) :
    ∃ (s : Double) (ns : Nat), s = d05 ∧ Double.le Double.zero s ∧
      (seg.setTime s).getTimeNSec = some ns ∧
      ((seg.setTime s).setTimeNSec ns).getTime = Double.zero ∧
      ((seg.setTime s).setTimeNSec ns).getTime ≠ s := by
  have h0 : ((seg.setTime d05).setTimeNSec 0).getTime = Double.zero := mul_ofUInt64_zero
  refine ⟨d05, 0, rfl, d05_nonneg, toUInt64_c1e9_mul_d05, h0, ?_⟩
  rw [h0]
  decide

/-! ## Order and the seconds round trip -/

theorem getTimeNSec_setTime_eq (seg : Segment) (s : Double) :
    (seg.setTime s).getTimeNSec = (Double.mul Double.c1e9 s).toUInt64 := rfl

theorem getTime_setTimeNSec_eq (seg : Segment) (ns : Nat) :
    (seg.setTimeNSec ns).getTime = Double.mul (Double.ofUInt64 ns) Double.c1em9 := rfl

/-- C16: `getTimeNSec` is monotone in the duration: for all durations `0 <= a <= b`
for which `getTimeNSec()` after `setTime(b)` is defined (`1.0e9 * b` is in `uint64_t`
range), `getTimeNSec()` after `setTime(a)` is defined and not larger. -/
theorem getTimeNSec_mono (seg : Segment) (a b : Double) (nb : Nat)
    (ha : Double.le Double.zero a) (hab : Double.le a b)
    (hb : (seg.setTime b).getTimeNSec = some nb) :
    ∃ na, (seg.setTime a).getTimeNSec = some na ∧ na ≤ nb := by
  rw [getTimeNSec_setTime_eq] at hb ⊢
  exact Double.toUInt64_mul_mono a b ha hab nb hb

theorem d19_le_d31 : Double.le d19 d31 := by decide

theorem getTimeNSec_setTime_d31 : (segment63.setTime d31).getTimeNSec = some 31 :=
  toUInt64_c1e9_mul_d31

theorem getTimeNSec_mono_witness :
    Double.le Double.zero d19 ∧ Double.le d19 d31 ∧
    (segment63.setTime d31).getTimeNSec = some 31 ∧
    ∃ na, (segment63.setTime d19).getTimeNSec = some na ∧ na ≤ 31 :=
  ⟨d19_nonneg, d19_le_d31, getTimeNSec_setTime_d31,
    getTimeNSec_mono segment63 d19 d31 31 d19_nonneg d19_le_d31 getTimeNSec_setTime_d31⟩

theorem d3_nonneg : Double.le Double.zero d3 := by
  rw [Double.zero_le_iff]
  exact Or.inr ⟨_, _, Or.inl rfl⟩

set_option maxRecDepth 100000 in
theorem toUInt64_c1e9_mul_d3 : (Double.mul Double.c1e9 d3).toUInt64 = some 3 := by decide

set_option maxRecDepth 100000 in
theorem mul_ofUInt64_three :
    Double.mul (Double.ofUInt64 3) Double.c1em9
      = Double.finite false 7253554917687776 (-81) := by decide

theorem getTimeNSec_setTime_d3 : (segment63.setTime d3).getTimeNSec = some 3 :=
  toUInt64_c1e9_mul_d3

/-- C15, as stated, fails: for `s` the binary64 value nearest to `3e-9`, `getTimeNSec()`
is `3`, and `setTimeNSec(3)` stores the next binary64 value above `s`: the new duration
exceeds `s`. -/
theorem seconds_roundtrip_overshoots :
    Double.le Double.zero d3 ∧ (segment63.setTime d3).getTimeNSec = some 3 ∧
    ((segment63.setTime d3).setTimeNSec 3).getTime
      = Double.finite false 7253554917687776 (-81) ∧
    Double.lt d3 (Double.finite false 7253554917687776 (-81)) ∧
    ¬ Double.le (Double.finite false 7253554917687776 (-81)) d3 := by
  refine ⟨d3_nonneg, getTimeNSec_setTime_d3, ?_, by decide, by decide⟩
  rw [getTime_setTimeNSec_eq]
  exact mul_ofUInt64_three

set_option maxRecDepth 100000 in
theorem toUInt64_c1e9_mul_dFar :
    (Double.mul Double.c1e9 dFar).toUInt64 = some 8388608000000006 := by decide

set_option maxRecDepth 100000 in
theorem mul_ofUInt64_far :
    Double.mul (Double.ofUInt64 8388608000000006) Double.c1em9
      = Double.finite false 4503599627370500 (-29) := by decide

/-- Beyond `2^52` nanoseconds the round trip can move the duration by more than a
nanosecond: for `s = 2^23 + 3 * 2^-29` seconds the new duration is `s + 2^-29`. -/
theorem seconds_roundtrip_far :
    (segment63.setTime dFar).getTimeNSec = some 8388608000000006 ∧
    ((segment63.setTime dFar).setTimeNSec 8388608000000006).getTime
      = Double.finite false 4503599627370500 (-29) ∧
    Double.toRat dFar + 1 / 10 ^ 9
      < Double.toRat (Double.finite false 4503599627370500 (-29)) := by
  refine ⟨toUInt64_c1e9_mul_dFar, ?_, ?_⟩
  · rw [getTime_setTimeNSec_eq]
    exact mul_ofUInt64_far
  · rw [dFar, Double.toRat, Double.toRat, zpow_neg]
    norm_num

/-! ## The nanosecond count against the exact product -/

theorem floor_toRat_d3 : ⌊Double.toRat d3 * 10 ^ 9⌋₊ = 2 := by
  rw [Nat.floor_eq_iff (by rw [d3, Double.toRat, zpow_neg]; norm_num)]
  constructor <;>
    · rw [d3, Double.toRat, zpow_neg]
      norm_num

/-- C9, as stated, fails: for `s` the binary64 value nearest to `3e-9` (it lies below
`3 / 10^9`), `floor(s * 1e9)` is `2`, and `getTimeNSec()` returns `3`: the product
`1.0e9 * s` is rounded to nearest, to `3`, before the cast truncates it. -/
theorem getTimeNSec_above_floor :
    Double.le Double.zero (segment63.setTime d3).getTime ∧
    (segment63.setTime d3).getTimeNSec = some 3 ∧
    ⌊Double.toRat (segment63.setTime d3).getTime * 10 ^ 9⌋₊ = 2 :=
  ⟨d3_nonneg, getTimeNSec_setTime_d3, floor_toRat_d3⟩

/-- C9, amended: for every segment whose duration `s` is non-negative and whose
`getTimeNSec()` is defined, with value `ns`: `ns` is the floor of the binary64 product
`1.0e9 * s` (the cast truncates toward zero, it does not round to nearest: `1.9e-9` gives
`1`, not `2`); that product is `s * 10^9` rounded to nearest, so
`s * 10^9 * (1 - 2^-53) - 1 < ns ≤ s * 10^9 * (1 + 2^-53)`; and when `ns < 2^53`, `ns` is
`floor(s * 10^9)` or `floor(s * 10^9) + 1`, the latter only when the binary64 product is
exactly that integer. -/
theorem getTimeNSec_floor_bounds (seg : Segment) (ns : Nat)
    (hs : Double.le Double.zero seg.getTime) (hns : seg.getTimeNSec = some ns) :
    ns = ⌊Double.toRat (Double.mul Double.c1e9 seg.getTime)⌋₊ ∧
    (ns : ℚ) ≤ Double.toRat (Double.mul Double.c1e9 seg.getTime) ∧
    (ns : ℚ) ≤ Double.toRat seg.getTime * 10 ^ 9 * (1 + 1 / 2 ^ 53) ∧
    Double.toRat seg.getTime * 10 ^ 9 * (1 - 1 / 2 ^ 53) - 1 < (ns : ℚ) ∧
    (ns < 2 ^ 53 → ⌊Double.toRat seg.getTime * 10 ^ 9⌋₊ ≤ ns ∧
      ns ≤ ⌊Double.toRat seg.getTime * 10 ^ 9⌋₊ + 1 ∧
      (ns = ⌊Double.toRat seg.getTime * 10 ^ 9⌋₊ + 1 →
        Double.toRat (Double.mul Double.c1e9 seg.getTime) = (ns : ℚ))) ∧
    (seg.getTime = d19 → ns = 1) := by
  obtain ⟨h1, h2, h3, h4, h5⟩ := Double.cast_mul_c1e9_bounds seg.getTime ns hs hns
  refine ⟨h1, h2, h3, h4, h5, fun h19 => ?_⟩
  have := getTimeNSec_of_d19 seg h19
  rw [hns] at this
  injection this

theorem getTimeNSec_floor_bounds_witness :
    Double.le Double.zero (segment63.setTime d3).getTime ∧
    (segment63.setTime d3).getTimeNSec = some 3 ∧
    ((3 : Nat) = ⌊Double.toRat (Double.mul Double.c1e9 (segment63.setTime d3).getTime)⌋₊ ∧
    ((3 : Nat) : ℚ) ≤ Double.toRat (Double.mul Double.c1e9 (segment63.setTime d3).getTime) ∧
    ((3 : Nat) : ℚ) ≤ Double.toRat (segment63.setTime d3).getTime * 10 ^ 9 * (1 + 1 / 2 ^ 53) ∧
    Double.toRat (segment63.setTime d3).getTime * 10 ^ 9 * (1 - 1 / 2 ^ 53) - 1
      < ((3 : Nat) : ℚ) ∧
    ((3 : Nat) < 2 ^ 53 → ⌊Double.toRat (segment63.setTime d3).getTime * 10 ^ 9⌋₊ ≤ 3 ∧
      3 ≤ ⌊Double.toRat (segment63.setTime d3).getTime * 10 ^ 9⌋₊ + 1 ∧
      (3 = ⌊Double.toRat (segment63.setTime d3).getTime * 10 ^ 9⌋₊ + 1 →
        Double.toRat (Double.mul Double.c1e9 (segment63.setTime d3).getTime)
          = ((3 : Nat) : ℚ))) ∧
    ((segment63.setTime d3).getTime = d19 → (3 : Nat) = 1)) :=
  ⟨d3_nonneg, getTimeNSec_setTime_d3,
    getTimeNSec_floor_bounds (segment63.setTime d3) 3 d3_nonneg getTimeNSec_setTime_d3⟩

set_option maxRecDepth 100000 in
theorem toUInt64_c1e9_mul_dFloor :
    (Double.mul Double.c1e9 dFloor).toUInt64 = some 29010394594618408 := by decide

/-- From `2^53` nanoseconds on the count can also fall below `floor(s * 10^9)`: for the
binary64 value `s = 7787418501746328 * 2^-28` (about 336 days) the count is
`29010394594618408` and `floor(s * 10^9)` is `29010394594618409`. -/
theorem getTimeNSec_below_floor :
    (segment63.setTime dFloor).getTimeNSec = some 29010394594618408 ∧
    ⌊Double.toRat dFloor * 10 ^ 9⌋₊ = 29010394594618409 := by
  refine ⟨toUInt64_c1e9_mul_dFloor, ?_⟩
  rw [Nat.floor_eq_iff (by rw [dFloor, Double.toRat, zpow_neg]; norm_num)]
  constructor <;>
    · rw [dFloor, Double.toRat, zpow_neg]
      norm_num

theorem d3_canonical : Double.Canonical d3 := by decide

/-- C15, amended: for every non-negative binary64 duration `s` whose `getTimeNSec()` is
defined, after `setTime(s)` and `setTimeNSec(getTimeNSec())` the new duration `s'` is a
non-negative finite value with `s - 1e-9 < s' ≤ s * (1 + 2^-53)^3`: the loss is below one
nanosecond, and `s'` exceeds `s` by at most the rounding errors of the three binary64
roundings involved (a few units in the last place). -/
theorem seconds_roundtrip_truncation (seg : Segment) (s : Double) (ns : Nat)
    (hs : Double.le Double.zero s) (hc : Double.Canonical s)
    (hns : (seg.setTime s).getTimeNSec = some ns) :
    ∃ (M : Nat) (E : Int),
      ((seg.setTime s).setTimeNSec ns).getTime = Double.finite false M E ∧
      Double.toRat s - 1 / 10 ^ 9 < Double.toRat (Double.finite false M E) ∧
      Double.toRat (Double.finite false M E) ≤ Double.toRat s * (1 + 1 / 2 ^ 53) ^ 3 := by
  rw [getTimeNSec_setTime_eq] at hns
  obtain ⟨M, E, h1, h2, h3⟩ := Double.seconds_roundtrip_loss s ns hs hc hns
  refine ⟨M, E, ?_, ?_, ?_⟩
  · rw [getTime_setTimeNSec_eq]
    exact h1
  · rw [toRat_nonneg_finite]
    exact h2
  · rw [toRat_nonneg_finite]
    exact h3

theorem seconds_roundtrip_truncation_witness :
    Double.le Double.zero d3 ∧ Double.Canonical d3 ∧
    (segment63.setTime d3).getTimeNSec = some 3 ∧
    ∃ (M : Nat) (E : Int),
      ((segment63.setTime d3).setTimeNSec 3).getTime = Double.finite false M E ∧
      Double.toRat d3 - 1 / 10 ^ 9 < Double.toRat (Double.finite false M E) ∧
      Double.toRat (Double.finite false M E) ≤ Double.toRat d3 * (1 + 1 / 2 ^ 53) ^ 3 :=
  ⟨d3_nonneg, d3_canonical, getTimeNSec_setTime_d3,
    seconds_roundtrip_truncation segment63 d3 3 d3_nonneg d3_canonical
      getTimeNSec_setTime_d3⟩

end Segment

end MavTrajectoryGeneration
